import Mathlib

set_option maxHeartbeats 1000000

/-!
Verification of the type-descriptor tree operations of `src/examples/c/support.c`
(`ffi_type_destroy`, `ffi_type_destroy_array`, `ffi_type_clone`,
`ffi_type_clone_array`) and of the closure scenario of `src/src/c/test.c`.

The C code manipulates a heap of `ffi_type` nodes and of sentinel-terminated
`ffi_type*` arrays.  We embed it with an explicit heap: `nodes` maps addresses
to descriptor records, `arrays` maps addresses to pointer blocks (lists of
addresses, the address `0` playing the role of `NULL`), and `next` is the
allocation frontier.  `free` of an unallocated address, a read of freed or
unallocated memory, and an out-of-bounds slot access are undefined behaviour
in C; the embedding makes each of them return `none`, so a run that returns
`some` performed no such access.  The mutual recursion of the C functions is
driven by a fuel parameter; termination on well-formed trees is proved by
exhibiting sufficient fuel.
-/

/-- Numeric value of the `FFI_TYPE_STRUCT` tag from libffi's `ffi.h`. -/
def FFI_TYPE_STRUCT : Nat := 13

/-- Numeric value of the `FFI_TYPE_COMPLEX` tag from libffi's `ffi.h`. -/
def FFI_TYPE_COMPLEX : Nat := 15

/-- Mirror of libffi's `struct ffi_type`: scalar attributes `size`, `alignment`
and `type`, and the `elements` field holding the address of the child array
(`0` encodes the `NULL` pointer). -/
structure FfiType where
  size : Nat
  alignment : Nat
  type : Nat
  elements : Nat
  deriving DecidableEq

/-- The aggregate test shared by `ffi_type_destroy` and `ffi_type_clone`:
`t == FFI_TYPE_STRUCT || t == FFI_TYPE_COMPLEX`. -/
def isAggTag (t : Nat) : Bool :=
  t == FFI_TYPE_STRUCT || t == FFI_TYPE_COMPLEX

/-- The mutable store: descriptor nodes and pointer arrays by address, plus the
allocation frontier `next`.  Addresses `0` (the null pointer) and addresses at
or above `next` are never allocated in a well-formed heap. -/
structure Heap where
  nodes : Nat → Option FfiType
  arrays : Nat → Option (List Nat)
  next : Nat

/-- Heap sanity: the null address is never the frontier, and every allocated
address lies below the frontier. -/
def Heap.ok (h : Heap) : Prop :=
  0 < h.next ∧
  (∀ a, (h.nodes a).isSome → a < h.next) ∧
  (∀ a, (h.arrays a).isSome → a < h.next)

/-- `malloc(sizeof(ffi_type))` followed by `memcpy` from `n`: allocate a fresh
node holding a bitwise copy of `n`, returning the new heap and the address. -/
def Heap.allocNode (h : Heap) (n : FfiType) : Heap × Nat :=
  ({ nodes := fun a => if a = h.next then some n else h.nodes a,
     arrays := h.arrays, next := h.next + 1 }, h.next)

/-- `malloc(size * sizeof(ffi_type*))`: allocate a fresh pointer block with
content `l`, returning the new heap and the address. -/
def Heap.allocArray (h : Heap) (l : List Nat) : Heap × Nat :=
  ({ nodes := h.nodes,
     arrays := fun a => if a = h.next then some l else h.arrays a,
     next := h.next + 1 }, h.next)

/-- `free` of a descriptor node.  Freeing an address that is not currently an
allocated node is undefined behaviour, hence `none`. -/
def Heap.freeNode (h : Heap) (a : Nat) : Option Heap :=
  match h.nodes a with
  | none => none
  | some _ => some { h with nodes := fun b => if b = a then none else h.nodes b }

/-- `free` of a pointer array.  Freeing an address that is not currently an
allocated array is undefined behaviour, hence `none`. -/
def Heap.freeArray (h : Heap) (a : Nat) : Option Heap :=
  match h.arrays a with
  | none => none
  | some _ => some { h with arrays := fun b => if b = a then none else h.arrays b }

/-- The store `copy->elements = ea`: overwrite the `elements` field of the node
at `a`.  Writing through an invalid pointer is undefined behaviour. -/
def Heap.setElements (h : Heap) (a : Nat) (ea : Nat) : Option Heap :=
  match h.nodes a with
  | none => none
  | some n =>
      some { h with nodes := fun b => if b = a then some { n with elements := ea } else h.nodes b }

/-- The store `copy[i] = v` into a pointer array.  Out-of-bounds or invalid
writes are undefined behaviour. -/
def Heap.writeSlot (h : Heap) (a : Nat) (i : Nat) (v : Nat) : Option Heap :=
  match h.arrays a with
  | none => none
  | some l =>
      if i < l.length then
        some { h with arrays := fun b => if b = a then some (l.set i v) else h.arrays b }
      else none

/-- Index of the first null entry of a pointer block, if any: the scan
`for (curr = types; *curr != NULL; ++curr)` stops exactly there.  A block with
no null entry makes the C scan run off the allocation. -/
def sentinelIdx : List Nat → Option Nat
  | [] => none
  | a :: l => if a = 0 then some 0 else (sentinelIdx l).map (· + 1)

mutual

/-- Embedding of `ffi_type_destroy` from `src/examples/c/support.c`:
null is a no-op; a struct or complex node has its element array destroyed and
is then freed; any other (atomic) node is left untouched. -/
def ffi_type_destroy : Nat → Heap → Nat → Option Heap
  | 0, _, _ => none
  | fuel + 1, h, p =>
      if p = 0 then some h
      else
        match h.nodes p with
        | none => none
        | some node =>
            if isAggTag node.type then
              match ffi_type_destroy_array fuel h node.elements with
              | none => none
              | some h1 => h1.freeNode p
            else some h

/-- Embedding of `ffi_type_destroy_array` from `src/examples/c/support.c`:
destroy each element up to the sentinel, then free the array block itself. -/
def ffi_type_destroy_array : Nat → Heap → Nat → Option Heap
  | 0, _, _ => none
  | fuel + 1, h, p =>
      match destroyFrom fuel h p 0 with
      | none => none
      | some h1 => h1.freeArray p

/-- The loop `for (curr = types; *curr != NULL; ++curr) ffi_type_destroy(*curr)`
of `ffi_type_destroy_array`, starting at slot `i`: read slot `i` of the array
at `p`, stop at the sentinel, otherwise destroy the element and continue. -/
def destroyFrom : Nat → Heap → Nat → Nat → Option Heap
  | 0, _, _, _ => none
  | fuel + 1, h, p, i =>
      match h.arrays p with
      | none => none
      | some l =>
          match l[i]? with
          | none => none
          | some q =>
              if q = 0 then some h
              else
                match ffi_type_destroy fuel h q with
                | none => none
                | some h1 => destroyFrom fuel h1 p (i + 1)

end

mutual

/-- Embedding of `ffi_type_clone` from `src/examples/c/support.c`: null clones
to null; a struct or complex node is copied into a fresh allocation
(`malloc` + `memcpy`) whose `elements` field is then replaced by a clone of the
source's element array; an atomic node is returned unchanged, same address. -/
def ffi_type_clone : Nat → Heap → Nat → Option (Heap × Nat)
  | 0, _, _ => none
  | fuel + 1, h, p =>
      if p = 0 then some (h, 0)
      else
        match h.nodes p with
        | none => none
        | some node =>
            if isAggTag node.type then
              match h.allocNode node with
              | (h1, q) =>
                  match ffi_type_clone_array fuel h1 node.elements with
                  | none => none
                  | some (h2, ea) =>
                      match h2.setElements q ea with
                      | none => none
                      | some h3 => some (h3, q)
            else some (h, p)

/-- Embedding of `ffi_type_clone_array` from `src/examples/c/support.c`: scan
to the sentinel to compute `size` (entry count plus one), allocate a block of
`size` slots (uninitialised in C, modelled as zero-filled since every slot is
written before any read), then clone the entries slot by slot, the sentinel
slot included. -/
def ffi_type_clone_array : Nat → Heap → Nat → Option (Heap × Nat)
  | 0, _, _ => none
  | fuel + 1, h, p =>
      match h.arrays p with
      | none => none
      | some l =>
          match sentinelIdx l with
          | none => none
          | some n =>
              match h.allocArray (List.replicate (n + 1) 0) with
              | (h1, q) => cloneFrom fuel h1 p q 0 (n + 1)

/-- The loop `for (i = 0; i < size; ++i) copy[i] = ffi_type_clone(types[i])`
of `ffi_type_clone_array`: read slot `i` of the source block, clone it, store
the result into slot `i` of the destination block. -/
def cloneFrom : Nat → Heap → Nat → Nat → Nat → Nat → Option (Heap × Nat)
  | 0, _, _, _, _, _ => none
  | fuel + 1, h, src, dst, i, size =>
      if i < size then
        match h.arrays src with
        | none => none
        | some l =>
            match l[i]? with
            | none => none
            | some v =>
                match ffi_type_clone fuel h v with
                | none => none
                | some (h1, c) =>
                    match h1.writeSlot dst i c with
                    | none => none
                    | some h2 => cloneFrom fuel h2 src dst (i + 1) size
      else some (h, dst)

end

/-- Abstract descriptor trees: an atomic descriptor is identified by the
address of its shared singleton node; an aggregate records the address of its
own node, its scalar attributes, the address of its child array, and its
children in order. -/
inductive Ty where
  | atomic (addr : Nat) : Ty
  | aggregate (addr size alignment tag arrAddr : Nat) (children : List Ty) : Ty

/-- Address of the node a tree hangs at. -/
def Ty.addr : Ty → Nat
  | .atomic a => a
  | .aggregate p _ _ _ _ _ => p

/-- Observable shape of a descriptor tree: atomic leaves keep their identity
(their address), aggregates keep their scalar attributes and the shapes of
their children, but not their own addresses. -/
inductive Shape where
  | atomic (addr : Nat) : Shape
  | aggregate (size alignment tag : Nat) (children : List Shape) : Shape

mutual

/-- Shape of a tree. -/
def Ty.shape : Ty → Shape
  | .atomic a => .atomic a
  | .aggregate _ sz al tg _ ts => .aggregate sz al tg (shapeList ts)

/-- Shapes of a list of trees. -/
def shapeList : List Ty → List Shape
  | [] => []
  | t :: ts => t.shape :: shapeList ts

end

mutual

/-- Addresses of the descriptor nodes a tree owns: every aggregate node of the
tree.  Atomic singletons are never owned. -/
def ownedNodes : Ty → List Nat
  | .atomic _ => []
  | .aggregate p _ _ _ _ ts => p :: ownedNodesList ts

/-- Owned node addresses of a list of trees. -/
def ownedNodesList : List Ty → List Nat
  | [] => []
  | t :: ts => ownedNodes t ++ ownedNodesList ts

end

mutual

/-- Addresses of the pointer arrays a tree owns: the child array of every
aggregate node of the tree. -/
def ownedArrays : Ty → List Nat
  | .atomic _ => []
  | .aggregate _ _ _ _ ea ts => ea :: ownedArraysList ts

/-- Owned array addresses of a list of trees. -/
def ownedArraysList : List Ty → List Nat
  | [] => []
  | t :: ts => ownedArrays t ++ ownedArraysList ts

end

mutual

/-- All node addresses a tree's representation depends on: its owned aggregate
nodes together with the shared atomic singletons it references. -/
def suppNodes : Ty → List Nat
  | .atomic a => [a]
  | .aggregate p _ _ _ _ ts => p :: suppNodesList ts

/-- Support node addresses of a list of trees. -/
def suppNodesList : List Ty → List Nat
  | [] => []
  | t :: ts => suppNodes t ++ suppNodesList ts

end

mutual

/-- The tree `t` is laid out in heap `h`: atomic leaves point at allocated
non-aggregate nodes; an aggregate's node carries exactly the recorded scalar
attributes and child-array address, and the child array holds the children's
addresses followed by the null sentinel (its block may extend past the
sentinel, which consumers never read). -/
def models (h : Heap) : Ty → Prop
  | .atomic a =>
      a ≠ 0 ∧ ∃ node, h.nodes a = some node ∧ isAggTag node.type = false
  | .aggregate p sz al tg ea ts =>
      p ≠ 0 ∧ ea ≠ 0 ∧ isAggTag tg = true ∧
      h.nodes p = some ⟨sz, al, tg, ea⟩ ∧
      (∃ l, h.arrays ea = some l ∧ sentinelIdx l = some ts.length ∧
            l.take ts.length = List.map Ty.addr ts) ∧
      modelsList h ts

/-- Every tree of the list is laid out in `h`. -/
def modelsList (h : Heap) : List Ty → Prop
  | [] => True
  | t :: ts => models h t ∧ modelsList h ts

end

/-- A standalone sentinel-terminated descriptor array at address `p` holding
the trees `ts`, as passed to `ffi_type_destroy_array`/`ffi_type_clone_array`. -/
def modelsArr (h : Heap) (p : Nat) (ts : List Ty) : Prop :=
  p ≠ 0 ∧
  (∃ l, h.arrays p = some l ∧ sentinelIdx l = some ts.length ∧
        l.take ts.length = List.map Ty.addr ts) ∧
  modelsList h ts

/-- Exclusive ownership: no owned node and no owned array appears twice in the
tree (the spec's "an Aggregate node owns its children tree exclusively"). -/
def exclusive (t : Ty) : Prop :=
  (ownedNodes t).Nodup ∧ (ownedArrays t).Nodup

/-- Exclusive ownership across a list of trees. -/
def exclusiveList (ts : List Ty) : Prop :=
  (ownedNodesList ts).Nodup ∧ (ownedArraysList ts).Nodup

/-- Heap after freeing the nodes of `N` and the arrays of `A`, everything else
untouched. -/
def Heap.freeAll (h : Heap) (N A : List Nat) : Heap :=
  { nodes := fun a => if a ∈ N then none else h.nodes a,
    arrays := fun a => if a ∈ A then none else h.arrays a,
    next := h.next }

mutual

/-- Fuel sufficient for `ffi_type_destroy` on a tree. -/
def dFuel : Ty → Nat
  | .atomic _ => 1
  | .aggregate _ _ _ _ _ ts => dFuelList ts + 2

/-- Fuel sufficient for `destroyFrom` over the listed children. -/
def dFuelList : List Ty → Nat
  | [] => 1
  | t :: ts => dFuel t + dFuelList ts + 1

end

mutual

/-- Fuel sufficient for `ffi_type_clone` on a tree. -/
def cFuel : Ty → Nat
  | .atomic _ => 1
  | .aggregate _ _ _ _ _ ts => cFuelList ts + 2

/-- Fuel sufficient for `cloneFrom` over the listed children and the final
sentinel slot. -/
def cFuelList : List Ty → Nat
  | [] => 2
  | t :: ts => cFuel t + cFuelList ts + 1

end

/-- Two heaps with pointwise equal stores and equal frontier are equal. -/
theorem Heap.extEq {h1 h2 : Heap} (hn : ∀ a, h1.nodes a = h2.nodes a)
    (ha : ∀ a, h1.arrays a = h2.arrays a) (hx : h1.next = h2.next) : h1 = h2 := by
  cases h1; cases h2
  simp only [Heap.mk.injEq]
  exact ⟨funext hn, funext ha, hx⟩

/-- Node store of `freeAll`. -/
theorem Heap.freeAll_nodes (h : Heap) (N A : List Nat) (a : Nat) :
    (h.freeAll N A).nodes a = if a ∈ N then none else h.nodes a := rfl

/-- Array store of `freeAll`. -/
theorem Heap.freeAll_arrays (h : Heap) (N A : List Nat) (a : Nat) :
    (h.freeAll N A).arrays a = if a ∈ A then none else h.arrays a := rfl

/-- Frontier of `freeAll`. -/
theorem Heap.freeAll_next (h : Heap) (N A : List Nat) :
    (h.freeAll N A).next = h.next := rfl

/-- Freeing nothing changes nothing. -/
theorem Heap.freeAll_nil (h : Heap) : h.freeAll [] [] = h := by
  apply Heap.extEq <;> intros <;> rfl

/-- Two successive bulk frees fuse. -/
theorem Heap.freeAll_freeAll (h : Heap) (N1 A1 N2 A2 : List Nat) :
    (h.freeAll N1 A1).freeAll N2 A2 = h.freeAll (N1 ++ N2) (A1 ++ A2) := by
  apply Heap.extEq
  · intro a
    simp only [Heap.freeAll_nodes, List.mem_append]
    by_cases h1 : a ∈ N1 <;> by_cases h2 : a ∈ N2 <;> simp [h1, h2]
  · intro a
    simp only [Heap.freeAll_arrays, List.mem_append]
    by_cases h1 : a ∈ A1 <;> by_cases h2 : a ∈ A2 <;> simp [h1, h2]
  · rfl

/-- Freeing a still-allocated node after a bulk free extends the bulk free. -/
theorem Heap.freeNode_freeAll (h : Heap) (N A : List Nat) (p : Nat)
    (hp : p ∉ N) (hs : (h.nodes p).isSome) :
    (h.freeAll N A).freeNode p = some (h.freeAll (p :: N) A) := by
  obtain ⟨n, hn⟩ := Option.isSome_iff_exists.mp hs
  have hlook : (h.freeAll N A).nodes p = some n := by
    simp [Heap.freeAll_nodes, hp, hn]
  unfold Heap.freeNode
  rw [hlook]
  refine congrArg some (Heap.extEq ?_ ?_ rfl)
  · intro a
    by_cases hap : a = p
    · subst hap; simp [Heap.freeAll_nodes]
    · simp [Heap.freeAll_nodes, hap, List.mem_cons]
  · intro a; rfl

/-- Freeing a still-allocated array after a bulk free extends the bulk free. -/
theorem Heap.freeArray_freeAll (h : Heap) (N A : List Nat) (p : Nat)
    (hp : p ∉ A) (hs : (h.arrays p).isSome) :
    (h.freeAll N A).freeArray p = some (h.freeAll N (p :: A)) := by
  obtain ⟨l, hl⟩ := Option.isSome_iff_exists.mp hs
  have hlook : (h.freeAll N A).arrays p = some l := by
    simp [Heap.freeAll_arrays, hp, hl]
  unfold Heap.freeArray
  rw [hlook]
  refine congrArg some (Heap.extEq ?_ ?_ rfl)
  · intro a; rfl
  · intro a
    by_cases hap : a = p
    · subst hap; simp [Heap.freeAll_arrays]
    · simp [Heap.freeAll_arrays, hap, List.mem_cons]

/-- Bulk frees preserve heap sanity. -/
theorem Heap.ok_freeAll {h : Heap} (hk : h.ok) (N A : List Nat) : (h.freeAll N A).ok := by
  obtain ⟨h0, hn, ha⟩ := hk
  refine ⟨h0, fun a hs => ?_, fun a hs => ?_⟩
  · apply hn
    simp only [Heap.freeAll_nodes] at hs
    by_cases hm : a ∈ N
    · simp [hm] at hs
    · simpa [hm] using hs
  · apply ha
    simp only [Heap.freeAll_arrays] at hs
    by_cases hm : a ∈ A
    · simp [hm] at hs
    · simpa [hm] using hs

/-- The sentinel position is inside the block and holds the null entry. -/
theorem sentinelIdx_getElem {l : List Nat} {n : Nat} (hs : sentinelIdx l = some n) :
    n < l.length ∧ l[n]? = some 0 := by
  induction l generalizing n with
  | nil => simp [sentinelIdx] at hs
  | cons a l ih =>
      by_cases ha : a = 0
      · simp [sentinelIdx, ha] at hs
        subst hs
        simp [ha]
      · simp [sentinelIdx, ha] at hs
        obtain ⟨m, hm, rfl⟩ := hs
        obtain ⟨h1, h2⟩ := ih hm
        constructor
        · simpa using Nat.succ_lt_succ h1
        · simpa using h2

/-- Slot invariant of a sentinel-terminated block: starting at slot `i`, the
block holds the addresses of `ts` followed by the null sentinel. -/
def slotInv (l : List Nat) (i : Nat) (ts : List Ty) : Prop :=
  ∀ j, j ≤ ts.length → l[i + j]? = (List.map Ty.addr ts ++ [0])[j]?

/-- A freshly characterised array satisfies the slot invariant from slot 0. -/
theorem slotInv_zero {l : List Nat} {ts : List Ty}
    (hs : sentinelIdx l = some ts.length)
    (ht : l.take ts.length = List.map Ty.addr ts) : slotInv l 0 ts := by
  intro j hj
  rcases Nat.lt_or_ge j ts.length with hlt | hge
  · have h1 : (l.take ts.length)[j]? = l[j]? := by
      simp [List.getElem?_take, hlt]
    have h2 : (List.map Ty.addr ts ++ [0])[j]? = (List.map Ty.addr ts)[j]? := by
      simp [List.getElem?_append, hlt]
    rw [Nat.zero_add, ← h1, ht, h2]
  · have hj' : j = ts.length := Nat.le_antisymm hj hge
    subst hj'
    obtain ⟨_, h0⟩ := sentinelIdx_getElem hs
    rw [Nat.zero_add, h0]
    have : (List.map Ty.addr ts).length ≤ ts.length := by simp
    rw [List.getElem?_append_right (by simp)]
    simp

/-- Unfolding the slot invariant at a child entry. -/
theorem slotInv_cons {l : List Nat} {i : Nat} {t : Ty} {ts : List Ty}
    (h : slotInv l i (t :: ts)) : l[i]? = some t.addr ∧ slotInv l (i + 1) ts := by
  constructor
  · have := h 0 (Nat.zero_le _)
    simpa using this
  · intro j hj
    have := h (j + 1) (by simpa using Nat.succ_le_succ hj)
    have harr : (List.map Ty.addr (t :: ts) ++ [0])[j + 1]? = (List.map Ty.addr ts ++ [0])[j]? := by
      simp [List.map_cons, List.cons_append]
    have hidx : i + 1 + j = i + (j + 1) := by omega
    rw [hidx, this, harr]

/-- Unfolding the slot invariant at the sentinel. -/
theorem slotInv_nil {l : List Nat} {i : Nat} (h : slotInv l i []) : l[i]? = some 0 := by
  have := h 0 (Nat.zero_le _)
  simpa using this

mutual

/-- Every support node address of a laid-out tree is allocated. -/
theorem models_supp_allocated (t : Ty) (h : Heap) (hm : models h t) :
    ∀ a ∈ suppNodes t, (h.nodes a).isSome := by
  cases t with
  | atomic b =>
      intro a ha
      obtain ⟨_, node, hnode, _⟩ := hm
      simp only [suppNodes, List.mem_singleton] at ha
      subst ha
      simp [hnode]
  | aggregate p sz al tg ea ts =>
      intro a ha
      obtain ⟨_, _, _, hnode, _, hts⟩ := hm
      simp only [suppNodes, List.mem_cons] at ha
      rcases ha with rfl | ha
      · simp [hnode]
      · exact modelsList_supp_allocated ts h hts a ha

/-- Every support node address of a laid-out list of trees is allocated. -/
theorem modelsList_supp_allocated (ts : List Ty) (h : Heap) (hm : modelsList h ts) :
    ∀ a ∈ suppNodesList ts, (h.nodes a).isSome := by
  cases ts with
  | nil => intro a ha; simp [suppNodesList] at ha
  | cons t ts =>
      intro a ha
      obtain ⟨h1, h2⟩ := hm
      simp only [suppNodesList, List.mem_append] at ha
      rcases ha with ha | ha
      · exact models_supp_allocated t h h1 a ha
      · exact modelsList_supp_allocated ts h h2 a ha

end

mutual

/-- Every owned array address of a laid-out tree is allocated. -/
theorem models_arrays_allocated (t : Ty) (h : Heap) (hm : models h t) :
    ∀ a ∈ ownedArrays t, (h.arrays a).isSome := by
  cases t with
  | atomic b => intro a ha; simp [ownedArrays] at ha
  | aggregate p sz al tg ea ts =>
      intro a ha
      obtain ⟨_, _, _, _, ⟨l, hl, _, _⟩, hts⟩ := hm
      simp only [ownedArrays, List.mem_cons] at ha
      rcases ha with rfl | ha
      · simp [hl]
      · exact modelsList_arrays_allocated ts h hts a ha

/-- Every owned array address of a laid-out list of trees is allocated. -/
theorem modelsList_arrays_allocated (ts : List Ty) (h : Heap) (hm : modelsList h ts) :
    ∀ a ∈ ownedArraysList ts, (h.arrays a).isSome := by
  cases ts with
  | nil => intro a ha; simp [ownedArraysList] at ha
  | cons t ts =>
      intro a ha
      obtain ⟨h1, h2⟩ := hm
      simp only [ownedArraysList, List.mem_append] at ha
      rcases ha with ha | ha
      · exact models_arrays_allocated t h h1 a ha
      · exact modelsList_arrays_allocated ts h h2 a ha

end

/-- The root address of a laid-out tree is never null. -/
theorem models_addr_ne_zero {h : Heap} {t : Ty} (hm : models h t) : t.addr ≠ 0 := by
  cases t with
  | atomic a => exact hm.1
  | aggregate p sz al tg ea ts => exact hm.1

mutual

/-- Every owned node address of a laid-out tree carries an aggregate-tagged
node. -/
theorem models_owned_agg (t : Ty) (h : Heap) (hm : models h t) :
    ∀ a ∈ ownedNodes t, ∃ n, h.nodes a = some n ∧ isAggTag n.type = true := by
  cases t with
  | atomic b => intro a ha; simp [ownedNodes] at ha
  | aggregate p sz al tg ea ts =>
      intro a ha
      obtain ⟨_, _, htg, hnode, _, hts⟩ := hm
      simp only [ownedNodes, List.mem_cons] at ha
      rcases ha with rfl | ha
      · exact ⟨_, hnode, htg⟩
      · exact modelsList_owned_agg ts h hts a ha

/-- List version of `models_owned_agg`. -/
theorem modelsList_owned_agg (ts : List Ty) (h : Heap) (hm : modelsList h ts) :
    ∀ a ∈ ownedNodesList ts, ∃ n, h.nodes a = some n ∧ isAggTag n.type = true := by
  cases ts with
  | nil => intro a ha; simp [ownedNodesList] at ha
  | cons t ts =>
      intro a ha
      obtain ⟨h1, h2⟩ := hm
      simp only [ownedNodesList, List.mem_append] at ha
      rcases ha with ha | ha
      · exact models_owned_agg t h h1 a ha
      · exact modelsList_owned_agg ts h h2 a ha

end

mutual

/-- Every support node address is either owned (aggregate) or an atomic
singleton. -/
theorem models_supp_cases (t : Ty) (h : Heap) (hm : models h t) :
    ∀ a ∈ suppNodes t,
      a ∈ ownedNodes t ∨ ∃ n, h.nodes a = some n ∧ isAggTag n.type = false := by
  cases t with
  | atomic b =>
      intro a ha
      simp only [suppNodes, List.mem_singleton] at ha
      subst ha
      obtain ⟨_, n, hn, hatom⟩ := hm
      exact Or.inr ⟨n, hn, hatom⟩
  | aggregate p sz al tg ea ts =>
      intro a ha
      obtain ⟨_, _, _, _, _, hts⟩ := hm
      simp only [suppNodes, List.mem_cons] at ha
      rcases ha with rfl | ha
      · exact Or.inl (by simp [ownedNodes])
      · rcases modelsList_supp_cases ts h hts a ha with hown | hatom
        · exact Or.inl (by simp [ownedNodes, List.mem_cons, hown])
        · exact Or.inr hatom

/-- List version of `models_supp_cases`. -/
theorem modelsList_supp_cases (ts : List Ty) (h : Heap) (hm : modelsList h ts) :
    ∀ a ∈ suppNodesList ts,
      a ∈ ownedNodesList ts ∨ ∃ n, h.nodes a = some n ∧ isAggTag n.type = false := by
  cases ts with
  | nil => intro a ha; simp [suppNodesList] at ha
  | cons t ts =>
      intro a ha
      obtain ⟨h1, h2⟩ := hm
      simp only [suppNodesList, List.mem_append] at ha
      rcases ha with ha | ha
      · rcases models_supp_cases t h h1 a ha with hown | hatom
        · exact Or.inl (by simp [ownedNodesList, List.mem_append, hown])
        · exact Or.inr hatom
      · rcases modelsList_supp_cases ts h h2 a ha with hown | hatom
        · exact Or.inl (by simp [ownedNodesList, List.mem_append, hown])
        · exact Or.inr hatom

end

mutual

/-- Owned node addresses are support addresses. -/
theorem ownedNodes_subset_supp (t : Ty) : ∀ a ∈ ownedNodes t, a ∈ suppNodes t := by
  cases t with
  | atomic b => intro a ha; simp [ownedNodes] at ha
  | aggregate p sz al tg ea ts =>
      intro a ha
      simp only [ownedNodes, List.mem_cons] at ha
      rcases ha with rfl | ha
      · simp [suppNodes]
      · simp only [suppNodes, List.mem_cons]
        exact Or.inr (ownedNodesList_subset_supp ts a ha)

/-- List version of `ownedNodes_subset_supp`. -/
theorem ownedNodesList_subset_supp (ts : List Ty) :
    ∀ a ∈ ownedNodesList ts, a ∈ suppNodesList ts := by
  cases ts with
  | nil => intro a ha; simp [ownedNodesList] at ha
  | cons t ts =>
      intro a ha
      simp only [ownedNodesList, List.mem_append] at ha
      simp only [suppNodesList, List.mem_append]
      rcases ha with ha | ha
      · exact Or.inl (ownedNodes_subset_supp t a ha)
      · exact Or.inr (ownedNodesList_subset_supp ts a ha)

end

mutual

/-- Frame rule: a heap that agrees with `h` on a tree's support nodes and owned
arrays still lays the tree out. -/
theorem models_frame (t : Ty) (h h' : Heap) (hm : models h t)
    (hn : ∀ a ∈ suppNodes t, h'.nodes a = h.nodes a)
    (ha : ∀ a ∈ ownedArrays t, h'.arrays a = h.arrays a) : models h' t := by
  cases t with
  | atomic b =>
      obtain ⟨hb, n, hnode, hatom⟩ := hm
      refine ⟨hb, n, ?_, hatom⟩
      rw [hn b (by simp [suppNodes])]
      exact hnode
  | aggregate p sz al tg ea ts =>
      obtain ⟨hp, hea, htg, hnode, ⟨l, hl, hsent, htake⟩, hts⟩ := hm
      refine ⟨hp, hea, htg, ?_, ⟨l, ?_, hsent, htake⟩, ?_⟩
      · rw [hn p (by simp [suppNodes])]
        exact hnode
      · rw [ha ea (by simp [ownedArrays])]
        exact hl
      · refine modelsList_frame ts h h' hts ?_ ?_
        · intro a haa
          exact hn a (by simp [suppNodes, List.mem_cons, haa])
        · intro a haa
          exact ha a (by simp [ownedArrays, List.mem_cons, haa])

/-- List version of the frame rule. -/
theorem modelsList_frame (ts : List Ty) (h h' : Heap) (hm : modelsList h ts)
    (hn : ∀ a ∈ suppNodesList ts, h'.nodes a = h.nodes a)
    (ha : ∀ a ∈ ownedArraysList ts, h'.arrays a = h.arrays a) : modelsList h' ts := by
  cases ts with
  | nil => trivial
  | cons t ts =>
      obtain ⟨h1, h2⟩ := hm
      constructor
      · refine models_frame t h h' h1 ?_ ?_
        · intro a haa
          exact hn a (by simp [suppNodesList, List.mem_append, haa])
        · intro a haa
          exact ha a (by simp [ownedArraysList, List.mem_append, haa])
      · refine modelsList_frame ts h h' h2 ?_ ?_
        · intro a haa
          exact hn a (by simp [suppNodesList, List.mem_append, haa])
        · intro a haa
          exact ha a (by simp [ownedArraysList, List.mem_append, haa])

end

mutual

/-- Exact effect of `ffi_type_destroy` on a well-formed, exclusively owned
tree: with sufficient fuel it succeeds and the final heap is the initial heap
with precisely the tree's owned nodes and owned arrays freed — each exactly
once and nothing else. -/
theorem destroy_exact (t : Ty) (h : Heap) (fuel : Nat) (hm : models h t)
    (hx : exclusive t) (hf : dFuel t ≤ fuel) :
    ffi_type_destroy fuel h t.addr =
      some (h.freeAll (ownedNodes t) (ownedArrays t)) := by
  obtain ⟨f, rfl⟩ : ∃ f, fuel = f + 1 := by
    cases t <;> simp [dFuel] at hf <;> exact ⟨fuel - 1, by omega⟩
  cases t with
  | atomic a =>
      obtain ⟨ha, n, hnode, hatom⟩ := hm
      rw [ffi_type_destroy]
      simp [Ty.addr, ha, hnode, hatom, ownedNodes, ownedArrays, Heap.freeAll_nil]
  | aggregate p sz al tg ea ts =>
      obtain ⟨hp, hea, htg, hnode, ⟨l, hl, hsent, htake⟩, hts⟩ := hm
      simp only [dFuel] at hf
      obtain ⟨f', rfl⟩ : ∃ f', f = f' + 1 := ⟨f - 1, by omega⟩
      have hxn : (p :: ownedNodesList ts).Nodup := by
        have := hx.1
        rwa [ownedNodes] at this
      have hxa : (ea :: ownedArraysList ts).Nodup := by
        have := hx.2
        rwa [ownedArrays] at this
      have hpnot : p ∉ ownedNodesList ts := (List.nodup_cons.mp hxn).1
      have heanot : ea ∉ ownedArraysList ts := (List.nodup_cons.mp hxa).1
      have hloop : destroyFrom f' h ea 0 =
          some (h.freeAll (ownedNodesList ts) (ownedArraysList ts)) :=
        destroyFrom_exact ts h f' ea 0 l hts
          ⟨(List.nodup_cons.mp hxn).2, (List.nodup_cons.mp hxa).2⟩ hl heanot
          (slotInv_zero hsent htake) (by omega)
      have hfree1 : (h.freeAll (ownedNodesList ts) (ownedArraysList ts)).freeArray ea =
          some (h.freeAll (ownedNodesList ts) (ea :: ownedArraysList ts)) :=
        Heap.freeArray_freeAll h _ _ ea heanot (by simp [hl])
      have hfree2 : (h.freeAll (ownedNodesList ts) (ea :: ownedArraysList ts)).freeNode p =
          some (h.freeAll (p :: ownedNodesList ts) (ea :: ownedArraysList ts)) :=
        Heap.freeNode_freeAll h _ _ p hpnot (by simp [hnode])
      rw [ffi_type_destroy]
      simp only [Ty.addr, hp, if_neg, hnode, htg, if_true, ffi_type_destroy_array,
        hloop, hfree1, hfree2, ownedNodes, ownedArrays]
      simp [hp]

/-- Exact effect of the destroy loop from slot `i`: it destroys exactly the
remaining children, in order, and never reads a slot past the sentinel. -/
theorem destroyFrom_exact (ts : List Ty) (h : Heap) (fuel p i : Nat) (l : List Nat)
    (hm : modelsList h ts) (hx : exclusiveList ts) (hl : h.arrays p = some l)
    (hpo : p ∉ ownedArraysList ts) (hslot : slotInv l i ts)
    (hf : dFuelList ts ≤ fuel) :
    destroyFrom fuel h p i =
      some (h.freeAll (ownedNodesList ts) (ownedArraysList ts)) := by
  obtain ⟨f, rfl⟩ : ∃ f, fuel = f + 1 := by
    cases ts <;> simp [dFuelList] at hf <;> exact ⟨fuel - 1, by omega⟩
  cases ts with
  | nil =>
      rw [destroyFrom]
      simp [hl, slotInv_nil hslot, ownedNodesList, ownedArraysList, Heap.freeAll_nil]
  | cons t ts =>
      simp only [dFuelList] at hf
      obtain ⟨hslot0, hslot1⟩ := slotInv_cons hslot
      have haddr : t.addr ≠ 0 := models_addr_ne_zero hm.1
      have hxn : (ownedNodes t ++ ownedNodesList ts).Nodup := by
        have := hx.1
        rwa [ownedNodesList] at this
      have hxa : (ownedArrays t ++ ownedArraysList ts).Nodup := by
        have := hx.2
        rwa [ownedArraysList] at this
      obtain ⟨hxn1, hxn2, hxdn⟩ := List.nodup_append.mp hxn
      obtain ⟨hxa1, hxa2, hxda⟩ := List.nodup_append.mp hxa
      have hpo1 : p ∉ ownedArrays t := fun hc =>
        hpo (by rw [ownedArraysList]; exact List.mem_append.mpr (Or.inl hc))
      have hpo2 : p ∉ ownedArraysList ts := fun hc =>
        hpo (by rw [ownedArraysList]; exact List.mem_append.mpr (Or.inr hc))
      have hchild : ffi_type_destroy f h t.addr =
          some (h.freeAll (ownedNodes t) (ownedArrays t)) :=
        destroy_exact t h f hm.1 ⟨hxn1, hxa1⟩ (by omega)
      have hts1 : modelsList (h.freeAll (ownedNodes t) (ownedArrays t)) ts := by
        refine modelsList_frame ts h _ hm.2 ?_ ?_
        · intro a ha
          rw [Heap.freeAll_nodes]
          have hnotin : a ∉ ownedNodes t := by
            rcases modelsList_supp_cases ts h hm.2 a ha with hown | ⟨n, hn, hatom⟩
            · exact fun hc => (hxdn hc hown).elim
            · intro hc
              obtain ⟨n', hn', hagg⟩ := models_owned_agg t h hm.1 a hc
              rw [hn] at hn'
              cases hn'
              rw [hatom] at hagg
              exact Bool.false_ne_true hagg
          rw [if_neg hnotin]
        · intro a ha
          rw [Heap.freeAll_arrays]
          have hnotin : a ∉ ownedArrays t := fun hc => (hxda hc ha).elim
          rw [if_neg hnotin]
      have hl1 : (h.freeAll (ownedNodes t) (ownedArrays t)).arrays p = some l := by
        rw [Heap.freeAll_arrays, if_neg hpo1]
        exact hl
      have hrest : destroyFrom f (h.freeAll (ownedNodes t) (ownedArrays t)) p (i + 1) =
          some ((h.freeAll (ownedNodes t) (ownedArrays t)).freeAll
            (ownedNodesList ts) (ownedArraysList ts)) :=
        destroyFrom_exact ts _ f p (i + 1) l hts1 ⟨hxn2, hxa2⟩ hl1 hpo2 hslot1 (by omega)
      rw [destroyFrom]
      simp [hl, hslot0, haddr, hchild, hrest, Heap.freeAll_freeAll,
        ownedNodesList, ownedArraysList]

end

/-- Overwrite an array store entry; auxiliary description of the heap produced
by `Heap.writeSlot`. -/
def Heap.setArrStore (h : Heap) (a : Nat) (l : List Nat) : Heap :=
  { h with arrays := fun b => if b = a then some l else h.arrays b }

/-- Overwrite a node store entry; auxiliary description of the heap produced
by `Heap.setElements`. -/
def Heap.setNodeStore (h : Heap) (a : Nat) (n : FfiType) : Heap :=
  { h with nodes := fun b => if b = a then some n else h.nodes b }

/-- Successful `writeSlot` described as a store update. -/
theorem Heap.writeSlot_eq {h : Heap} {a i v : Nat} {l : List Nat}
    (hl : h.arrays a = some l) (hi : i < l.length) :
    h.writeSlot a i v = some (h.setArrStore a (l.set i v)) := by
  unfold Heap.writeSlot
  rw [hl]
  simp [hi, Heap.setArrStore]

/-- Successful `setElements` described as a store update. -/
theorem Heap.setElements_eq {h : Heap} {a ea : Nat} {n : FfiType}
    (hn : h.nodes a = some n) :
    h.setElements a ea = some (h.setNodeStore a { n with elements := ea }) := by
  unfold Heap.setElements
  rw [hn]
  rfl

/-- Updating an already-allocated array entry preserves heap sanity. -/
theorem Heap.setArrStore_ok {h : Heap} {a : Nat} {l : List Nat} (hk : h.ok)
    (ha : (h.arrays a).isSome) : (h.setArrStore a l).ok := by
  obtain ⟨h0, hn, har⟩ := hk
  refine ⟨h0, hn, fun b hb => ?_⟩
  by_cases hba : b = a
  · subst hba; exact har b ha
  · apply har
    simpa [Heap.setArrStore, hba] using hb

/-- Updating an already-allocated node entry preserves heap sanity. -/
theorem Heap.setNodeStore_ok {h : Heap} {a : Nat} {n : FfiType} (hk : h.ok)
    (ha : (h.nodes a).isSome) : (h.setNodeStore a n).ok := by
  obtain ⟨h0, hn, har⟩ := hk
  refine ⟨h0, fun b hb => ?_, har⟩
  by_cases hba : b = a
  · subst hba; exact hn b ha
  · apply hn
    simpa [Heap.setNodeStore, hba] using hb

/-- Allocating a node preserves heap sanity. -/
theorem Heap.allocNode_ok {h : Heap} (hk : h.ok) (n : FfiType) :
    (h.allocNode n).1.ok := by
  obtain ⟨h0, hn, har⟩ := hk
  refine ⟨by simp [Heap.allocNode], fun b hb => ?_, fun b hb => ?_⟩
  · simp only [Heap.allocNode] at hb ⊢
    by_cases hbn : b = h.next
    · omega
    · simp only [hbn, if_false] at hb
      have := hn b hb
      omega
  · simp only [Heap.allocNode] at hb ⊢
    have := har b hb
    omega

/-- Allocating an array preserves heap sanity. -/
theorem Heap.allocArray_ok {h : Heap} (hk : h.ok) (l : List Nat) :
    (h.allocArray l).1.ok := by
  obtain ⟨h0, hn, har⟩ := hk
  refine ⟨by simp [Heap.allocArray], fun b hb => ?_, fun b hb => ?_⟩
  · simp only [Heap.allocArray] at hb ⊢
    have := hn b hb
    omega
  · simp only [Heap.allocArray] at hb ⊢
    by_cases hbn : b = h.next
    · omega
    · simp only [hbn, if_false] at hb
      have := har b hb
      omega

/-- A block of nonzero entries followed by the null sentinel has its first
sentinel exactly at the end of the block. -/
theorem sentinelIdx_append {l : List Nat} (h0 : ∀ a ∈ l, a ≠ 0) :
    sentinelIdx (l ++ [0]) = some l.length := by
  induction l with
  | nil => simp [sentinelIdx]
  | cons a l ih =>
      have ha : a ≠ 0 := h0 a (by simp)
      simp only [List.cons_append, sentinelIdx, ha, if_false]
      rw [List.append_eq, ih (fun b hb => h0 b (by simp [hb]))]
      simp

/-- Addresses of laid-out trees are nonzero. -/
theorem modelsList_addr_ne_zero {h : Heap} {ts : List Ty} (hm : modelsList h ts) :
    ∀ t ∈ ts, t.addr ≠ 0 := by
  induction ts with
  | nil => intro t ht; simp at ht
  | cons t0 ts ih =>
      intro t ht
      rcases List.mem_cons.mp ht with rfl | ht
      · exact models_addr_ne_zero hm.1
      · exact ih hm.2 t ht

/-- Two duplicate-free lists separated by a bound concatenate duplicate-free. -/
theorem nodup_append_bounds {l1 l2 : List Nat} {m : Nat} (h1 : l1.Nodup)
    (h2 : l2.Nodup) (b1 : ∀ a ∈ l1, a < m) (b2 : ∀ a ∈ l2, m ≤ a) :
    (l1 ++ l2).Nodup := by
  refine List.nodup_append.mpr ⟨h1, h2, fun a ha1 ha2 => ?_⟩
  have := b1 a ha1
  have := b2 a ha2
  omega

/-- Shapes preserve list length. -/
theorem shapeList_length (ts : List Ty) : (shapeList ts).length = ts.length := by
  induction ts with
  | nil => rfl
  | cons t ts ih => simp [shapeList, ih]

/-- Support nodes of a laid-out tree lie below the frontier. -/
theorem supp_lt_next {h : Heap} {t : Ty} (hm : models h t) (hk : h.ok) :
    ∀ a ∈ suppNodes t, a < h.next :=
  fun a ha => hk.2.1 a (models_supp_allocated t h hm a ha)

/-- Support nodes of a laid-out list lie below the frontier. -/
theorem suppList_lt_next {h : Heap} {ts : List Ty} (hm : modelsList h ts) (hk : h.ok) :
    ∀ a ∈ suppNodesList ts, a < h.next :=
  fun a ha => hk.2.1 a (modelsList_supp_allocated ts h hm a ha)

/-- Owned arrays of a laid-out tree lie below the frontier. -/
theorem arrays_lt_next {h : Heap} {t : Ty} (hm : models h t) (hk : h.ok) :
    ∀ a ∈ ownedArrays t, a < h.next :=
  fun a ha => hk.2.2 a (models_arrays_allocated t h hm a ha)

/-- Owned arrays of a laid-out list lie below the frontier. -/
theorem arraysList_lt_next {h : Heap} {ts : List Ty} (hm : modelsList h ts) (hk : h.ok) :
    ∀ a ∈ ownedArraysList ts, a < h.next :=
  fun a ha => hk.2.2 a (modelsList_arrays_allocated ts h hm a ha)

/-- Node store after `allocNode`. -/
theorem Heap.allocNode_nodes (h : Heap) (n : FfiType) (a : Nat) :
    (h.allocNode n).1.nodes a = if a = h.next then some n else h.nodes a := rfl

/-- Array store after `allocNode`. -/
theorem Heap.allocNode_arrays (h : Heap) (n : FfiType) (a : Nat) :
    (h.allocNode n).1.arrays a = h.arrays a := rfl

/-- Frontier after `allocNode`. -/
theorem Heap.allocNode_next (h : Heap) (n : FfiType) :
    (h.allocNode n).1.next = h.next + 1 := rfl

/-- Node store after `allocArray`. -/
theorem Heap.allocArray_nodes (h : Heap) (l : List Nat) (a : Nat) :
    (h.allocArray l).1.nodes a = h.nodes a := rfl

/-- Array store after `allocArray`. -/
theorem Heap.allocArray_arrays (h : Heap) (l : List Nat) (a : Nat) :
    (h.allocArray l).1.arrays a = if a = h.next then some l else h.arrays a := rfl

/-- Frontier after `allocArray`. -/
theorem Heap.allocArray_next (h : Heap) (l : List Nat) :
    (h.allocArray l).1.next = h.next + 1 := rfl

/-- Node store after `setArrStore`. -/
theorem Heap.setArrStore_nodes (h : Heap) (a : Nat) (l : List Nat) (b : Nat) :
    (h.setArrStore a l).nodes b = h.nodes b := rfl

/-- Array store after `setArrStore`. -/
theorem Heap.setArrStore_arrays (h : Heap) (a : Nat) (l : List Nat) (b : Nat) :
    (h.setArrStore a l).arrays b = if b = a then some l else h.arrays b := rfl

/-- Frontier after `setArrStore`. -/
theorem Heap.setArrStore_next (h : Heap) (a : Nat) (l : List Nat) :
    (h.setArrStore a l).next = h.next := rfl

/-- Node store after `setNodeStore`. -/
theorem Heap.setNodeStore_nodes (h : Heap) (a : Nat) (n : FfiType) (b : Nat) :
    (h.setNodeStore a n).nodes b = if b = a then some n else h.nodes b := rfl

/-- Array store after `setNodeStore`. -/
theorem Heap.setNodeStore_arrays (h : Heap) (a : Nat) (n : FfiType) (b : Nat) :
    (h.setNodeStore a n).arrays b = h.arrays b := rfl

/-- Frontier after `setNodeStore`. -/
theorem Heap.setNodeStore_next (h : Heap) (a : Nat) (n : FfiType) :
    (h.setNodeStore a n).next = h.next := rfl

/-- Cloning the null descriptor yields null, heap untouched. -/
theorem clone_null (f : Nat) (h : Heap) : ffi_type_clone (f + 1) h 0 = some (h, 0) := by
  rw [ffi_type_clone]
  simp

/-- One unfolding of `ffi_type_clone` on an aggregate node: allocate the
bitwise copy, clone the element array, patch the copy's `elements` field. -/
theorem clone_agg_step (f : Nat) (h : Heap) (p sz al tg ea : Nat)
    (hp : p ≠ 0) (hn : h.nodes p = some ⟨sz, al, tg, ea⟩) (ht : isAggTag tg = true) :
    ffi_type_clone (f + 1) h p =
      (match ffi_type_clone_array f (h.allocNode ⟨sz, al, tg, ea⟩).1 ea with
       | none => none
       | some (h2, ea2) =>
           match h2.setElements h.next ea2 with
           | none => none
           | some h3 => some (h3, h.next)) := by
  rw [ffi_type_clone, if_neg hp, hn]
  simp only [ht, if_true]
  rfl

/-- One unfolding of `ffi_type_clone_array`: scan to the sentinel, allocate
the destination block, enter the copy loop. -/
theorem clone_array_step (f : Nat) (h : Heap) (p n : Nat) (l : List Nat)
    (hl : h.arrays p = some l) (hs : sentinelIdx l = some n) :
    ffi_type_clone_array (f + 1) h p =
      cloneFrom f (h.allocArray (List.replicate (n + 1) 0)).1 p h.next 0 (n + 1) := by
  rw [ffi_type_clone_array]
  simp only [hl, hs]
  rfl

/-- The copy loop exits as soon as the index reaches `size`. -/
theorem cloneFrom_done (f : Nat) (h : Heap) (src dst i size : Nat) (hi : ¬ i < size) :
    cloneFrom (f + 1) h src dst i size = some (h, dst) := by
  rw [cloneFrom]
  simp [hi]

/-- Taking one more slot after an in-bounds `set` appends the written value. -/
theorem take_set_succ {d : List Nat} {i v : Nat} (hi : i < d.length) :
    (d.set i v).take (i + 1) = d.take i ++ [v] := by
  rw [List.set_eq_take_append_cons_drop]
  simp only [hi, if_true]
  rw [List.take_append_eq_append_take]
  simp [List.length_take, Nat.le_of_lt hi, Nat.min_eq_left (Nat.le_of_lt hi)]

/-- Setting the final slot rewrites the block as prefix plus that value. -/
theorem set_last {d : List Nat} {i v : Nat} (hlen : d.length = i + 1) :
    d.set i v = d.take i ++ [v] := by
  have hlt : i < d.length := by omega
  rw [List.set_eq_take_append_cons_drop]
  simp only [hlt, if_true]
  rw [List.drop_eq_nil_of_le (by omega)]

mutual

/-- Exact effect of `ffi_type_clone` on a well-formed tree: it succeeds and
returns a tree of identical shape (atomic leaves shared by reference,
aggregates freshly allocated); all new storage lies at fresh addresses, is
duplicate-free, and every pre-existing address is left untouched. -/
theorem clone_exact (t : Ty) (h : Heap) (fuel : Nat) (hm : models h t)
    (hk : h.ok) (hf : cFuel t ≤ fuel) :
    ∃ h' t',
      ffi_type_clone fuel h t.addr = some (h', t'.addr) ∧
      t'.shape = t.shape ∧
      models h' t' ∧
      h'.ok ∧
      h.next ≤ h'.next ∧
      (∀ a, a ∉ ownedNodes t' → h'.nodes a = h.nodes a) ∧
      (∀ a, a ∉ ownedArrays t' → h'.arrays a = h.arrays a) ∧
      (∀ a ∈ ownedNodes t', h.next ≤ a ∧ a < h'.next) ∧
      (∀ a ∈ ownedArrays t', h.next ≤ a ∧ a < h'.next) ∧
      (ownedNodes t').Nodup ∧ (ownedArrays t').Nodup ∧
      (∀ a ∈ suppNodes t', a ∈ ownedNodes t' ∨ a ∈ suppNodes t) := by
  obtain ⟨f, rfl⟩ : ∃ f, fuel = f + 1 := by
    cases t <;> simp [cFuel] at hf <;> exact ⟨fuel - 1, by omega⟩
  cases t with
  | atomic b =>
      obtain ⟨hb, n, hnode, hatom⟩ := hm
      refine ⟨h, .atomic b, ?_, rfl, ⟨hb, n, hnode, hatom⟩, hk, Nat.le_refl _,
        fun a _ => rfl, fun a _ => rfl, ?_, ?_, by simp [ownedNodes],
        by simp [ownedArrays], fun a ha => Or.inr ha⟩
      · rw [ffi_type_clone]
        simp [Ty.addr, hb, hnode, hatom]
      · intro a ha; simp [ownedNodes] at ha
      · intro a ha; simp [ownedArrays] at ha
  | aggregate p sz al tg ea ts =>
      obtain ⟨hp, hea, htg, hnode, ⟨l, hl, hsent, htake⟩, hts⟩ := hm
      simp only [cFuel] at hf
      have hkA : (h.allocNode ⟨sz, al, tg, ea⟩).1.ok := Heap.allocNode_ok hk _
      have hmArr : modelsArr (h.allocNode ⟨sz, al, tg, ea⟩).1 ea ts := by
        refine ⟨hea, ⟨l, ?_, hsent, htake⟩, ?_⟩
        · rw [Heap.allocNode_arrays]; exact hl
        · refine modelsList_frame ts h _ hts ?_ ?_
          · intro a ha
            rw [Heap.allocNode_nodes]
            have := suppList_lt_next hts hk a ha
            rw [if_neg (by omega)]
          · intro a _
            rw [Heap.allocNode_arrays]
      obtain ⟨h2, q2, ts', hca, hq2, hshape, hmts, harr, hok2, hnext2, hun, hua,
        hbn, hba, hndn, hnda, hsupp⟩ :=
        clone_array_exact ts (h.allocNode ⟨sz, al, tg, ea⟩).1 f ea hmArr hkA (by omega)
      rw [Heap.allocNode_next] at hq2 hnext2 hbn hba
      subst hq2
      have hq2notin : h.next ∉ ownedNodesList ts' := fun hc => by
        have := (hbn _ hc).1
        omega
      have hnode2 : h2.nodes h.next = some ⟨sz, al, tg, ea⟩ := by
        rw [hun h.next hq2notin, Heap.allocNode_nodes]
        simp
      have hset : h2.setElements h.next (h.next + 1) =
          some (h2.setNodeStore h.next ⟨sz, al, tg, h.next + 1⟩) :=
        Heap.setElements_eq hnode2
      refine ⟨h2.setNodeStore h.next ⟨sz, al, tg, h.next + 1⟩,
        .aggregate h.next sz al tg (h.next + 1) ts', ?_, ?_, ?_, ?_, ?_, ?_, ?_, ?_, ?_, ?_, ?_, ?_⟩
      · simp only [Ty.addr]
        rw [clone_agg_step f h p sz al tg ea hp hnode htg]
        simp only [hca, hset]
      · simp [Ty.shape, hshape]
      · refine ⟨by have h0 := hk.1; omega, by omega, htg, ?_,
          ⟨List.map Ty.addr ts' ++ [0], ?_, ?_, ?_⟩, ?_⟩
        · rw [Heap.setNodeStore_nodes]
          simp
        · rw [Heap.setNodeStore_arrays]
          exact harr
        · have h0 : ∀ a ∈ List.map Ty.addr ts', a ≠ 0 := by
            intro a ha
            obtain ⟨t0, ht0, rfl⟩ := List.mem_map.mp ha
            exact modelsList_addr_ne_zero hmts t0 ht0
          rw [sentinelIdx_append h0]
          simp
        · rw [← List.length_map ts' Ty.addr, List.take_left]
        · refine modelsList_frame ts' h2 _ hmts ?_ ?_
          · intro a ha
            rw [Heap.setNodeStore_nodes]
            have hane : a ≠ h.next := by
              rcases hsupp a ha with hown | hsup
              · have := (hbn _ hown).1
                omega
              · have := suppList_lt_next hts hk a hsup
                omega
            rw [if_neg hane]
          · intro a _
            rw [Heap.setNodeStore_arrays]
      · exact Heap.setNodeStore_ok hok2 (by simp [hnode2])
      · rw [Heap.setNodeStore_next]
        omega
      · intro a ha
        rw [ownedNodes] at ha
        simp only [List.mem_cons] at ha
        push_neg at ha
        rw [Heap.setNodeStore_nodes, if_neg ha.1, hun a ha.2, Heap.allocNode_nodes,
          if_neg ha.1]
      · intro a ha
        rw [ownedArrays] at ha
        simp only [List.mem_cons] at ha
        push_neg at ha
        rw [Heap.setNodeStore_arrays, hua a ha.1 ha.2, Heap.allocNode_arrays]
      · intro a ha
        rw [ownedNodes] at ha
        rw [Heap.setNodeStore_next]
        rcases List.mem_cons.mp ha with rfl | ha
        · omega
        · have := hbn _ ha
          omega
      · intro a ha
        rw [ownedArrays] at ha
        rw [Heap.setNodeStore_next]
        rcases List.mem_cons.mp ha with rfl | ha
        · omega
        · have := hba _ ha
          omega
      · rw [ownedNodes]
        exact List.nodup_cons.mpr ⟨hq2notin, hndn⟩
      · rw [ownedArrays]
        refine List.nodup_cons.mpr ⟨fun hc => ?_, hnda⟩
        have := (hba _ hc).1
        omega
      · intro a ha
        rw [suppNodes] at ha
        rcases List.mem_cons.mp ha with rfl | ha
        · exact Or.inl (by rw [ownedNodes]; exact List.mem_cons_self _ _)
        · rcases hsupp a ha with hown | hsup
          · exact Or.inl (by rw [ownedNodes]; exact List.mem_cons.mpr (Or.inr hown))
          · exact Or.inr (by rw [suppNodes]; exact List.mem_cons.mpr (Or.inr hsup))

/-- Exact effect of `ffi_type_clone_array` on a sentinel-terminated descriptor
array: the allocation has exactly one slot more than the entry count, the new
block holds the clones' addresses followed by the sentinel, and all new
storage is fresh. -/
theorem clone_array_exact (ts : List Ty) (h : Heap) (fuel p : Nat)
    (hm : modelsArr h p ts) (hk : h.ok) (hf : cFuelList ts + 1 ≤ fuel) :
    ∃ h' q ts',
      ffi_type_clone_array fuel h p = some (h', q) ∧
      q = h.next ∧
      shapeList ts' = shapeList ts ∧
      modelsList h' ts' ∧
      h'.arrays q = some (List.map Ty.addr ts' ++ [0]) ∧
      h'.ok ∧
      h.next < h'.next ∧
      (∀ a, a ∉ ownedNodesList ts' → h'.nodes a = h.nodes a) ∧
      (∀ a, a ≠ q → a ∉ ownedArraysList ts' → h'.arrays a = h.arrays a) ∧
      (∀ a ∈ ownedNodesList ts', h.next < a ∧ a < h'.next) ∧
      (∀ a ∈ ownedArraysList ts', h.next < a ∧ a < h'.next) ∧
      (ownedNodesList ts').Nodup ∧ (ownedArraysList ts').Nodup ∧
      (∀ a ∈ suppNodesList ts', a ∈ ownedNodesList ts' ∨ a ∈ suppNodesList ts) := by
  obtain ⟨f, rfl⟩ : ∃ f, fuel = f + 1 := ⟨fuel - 1, by omega⟩
  obtain ⟨hp0, ⟨l, hl, hsent, htake⟩, hts⟩ := hm
  have hkA : (h.allocArray (List.replicate (ts.length + 1) 0)).1.ok :=
    Heap.allocArray_ok hk _
  have hplt : p < h.next := hk.2.2 p (by simp [hl])
  have hmtsA : modelsList (h.allocArray (List.replicate (ts.length + 1) 0)).1 ts := by
    refine modelsList_frame ts h _ hts ?_ ?_
    · intro a _
      rw [Heap.allocArray_nodes]
    · intro a ha
      rw [Heap.allocArray_arrays]
      have := arraysList_lt_next hts hk a ha
      rw [if_neg (by omega)]
  have hlA : (h.allocArray (List.replicate (ts.length + 1) 0)).1.arrays p = some l := by
    rw [Heap.allocArray_arrays, if_neg (by omega)]
    exact hl
  have hdA : (h.allocArray (List.replicate (ts.length + 1) 0)).1.arrays h.next =
      some (List.replicate (ts.length + 1) 0) := by
    rw [Heap.allocArray_arrays]
    simp
  have hdo : h.next ∉ ownedArraysList ts := fun hc => by
    have := arraysList_lt_next hts hk _ hc
    omega
  obtain ⟨h', ts', hcf, hshape, hm', hdarr, hk', hnext', hun, hua, hbn, hba,
    hndn, hnda, hsupp⟩ :=
    cloneFrom_exact ts (h.allocArray (List.replicate (ts.length + 1) 0)).1 f p h.next 0
      (ts.length + 1) l (List.replicate (ts.length + 1) 0) hmtsA hkA hlA hdA
      (by omega) hdo (slotInv_zero hsent htake) (by omega) (by simp) (by omega)
  rw [Heap.allocArray_next] at hnext' hbn hba
  refine ⟨h', h.next, ts', ?_, rfl, hshape, hm', ?_, hk', by omega, ?_, ?_, ?_, ?_,
    hndn, hnda, hsupp⟩
  · rw [clone_array_step f h p ts.length l hl hsent]
    exact hcf
  · rw [hdarr]
    simp
  · intro a ha
    rw [hun a ha, Heap.allocArray_nodes]
  · intro a hne ha
    rw [hua a hne ha, Heap.allocArray_arrays, if_neg hne]
  · intro a ha
    have := hbn a ha
    omega
  · intro a ha
    have := hba a ha
    omega

/-- Exact effect of the copy loop from slot `i`: it writes clones of the
remaining entries and the final sentinel into the destination block and leaves
everything else (up to fresh allocation) untouched. -/
theorem cloneFrom_exact (ts : List Ty) (h : Heap) (fuel src dst i size : Nat)
    (l d : List Nat) (hm : modelsList h ts) (hk : h.ok)
    (hl : h.arrays src = some l) (hd : h.arrays dst = some d)
    (hsd : src ≠ dst) (hdo : dst ∉ ownedArraysList ts)
    (hslot : slotInv l i ts) (hsize : i + ts.length + 1 = size)
    (hlen : d.length = size) (hf : cFuelList ts ≤ fuel) :
    ∃ h' ts',
      cloneFrom fuel h src dst i size = some (h', dst) ∧
      shapeList ts' = shapeList ts ∧
      modelsList h' ts' ∧
      h'.arrays dst = some (d.take i ++ List.map Ty.addr ts' ++ [0]) ∧
      h'.ok ∧
      h.next ≤ h'.next ∧
      (∀ a, a ∉ ownedNodesList ts' → h'.nodes a = h.nodes a) ∧
      (∀ a, a ≠ dst → a ∉ ownedArraysList ts' → h'.arrays a = h.arrays a) ∧
      (∀ a ∈ ownedNodesList ts', h.next ≤ a ∧ a < h'.next) ∧
      (∀ a ∈ ownedArraysList ts', h.next ≤ a ∧ a < h'.next) ∧
      (ownedNodesList ts').Nodup ∧ (ownedArraysList ts').Nodup ∧
      (∀ a ∈ suppNodesList ts', a ∈ ownedNodesList ts' ∨ a ∈ suppNodesList ts) := by
  obtain ⟨f, rfl⟩ : ∃ f, fuel = f + 1 := by
    cases ts <;> simp [cFuelList] at hf <;> exact ⟨fuel - 1, by omega⟩
  cases ts with
  | nil =>
      simp only [cFuelList] at hf
      obtain ⟨f2, rfl⟩ : ∃ f2, f = f2 + 1 := ⟨f - 1, by omega⟩
      simp only [List.length_nil] at hsize
      have hi : i < size := by omega
      have hl0 : l[i]? = some 0 := slotInv_nil hslot
      have hw : h.writeSlot dst i 0 = some (h.setArrStore dst (d.set i 0)) :=
        Heap.writeSlot_eq hd (by omega)
      refine ⟨h.setArrStore dst (d.set i 0), [], ?_, rfl, trivial, ?_, ?_, ?_, ?_, ?_, ?_, ?_,
        List.nodup_nil, List.nodup_nil, ?_⟩
      · rw [cloneFrom]
        simp only [hi, if_true, hl, hl0, clone_null, hw]
        rw [cloneFrom_done f2 _ src dst (i + 1) size (by omega)]
      · rw [Heap.setArrStore_arrays]
        simp only [if_pos rfl]
        rw [set_last (by omega)]
        simp
      · exact Heap.setArrStore_ok hk (by simp [hd])
      · rw [Heap.setArrStore_next]
      · intro a _
        rw [Heap.setArrStore_nodes]
      · intro a hne _
        rw [Heap.setArrStore_arrays, if_neg hne]
      · intro a ha
        simp [ownedNodesList] at ha
      · intro a ha
        simp [ownedArraysList] at ha
      · intro a ha
        simp [suppNodesList] at ha
  | cons t ts =>
      simp only [cFuelList] at hf
      simp only [List.length_cons] at hsize
      have hi : i < size := by omega
      obtain ⟨hslot0, hslot1⟩ := slotInv_cons hslot
      obtain ⟨h1, t1, hcl, hshape1, hm1, hk1, hnext1, hun1, hua1, hbn1, hba1,
        hndn1, hnda1, hsupp1⟩ := clone_exact t h f hm.1 hk (by omega)
      have hsrc_lt : src < h.next := hk.2.2 src (by simp [hl])
      have hdst_lt : dst < h.next := hk.2.2 dst (by simp [hd])
      have hdst_no1 : dst ∉ ownedArrays t1 := fun hc => by
        have := (hba1 dst hc).1
        omega
      have hsrc_no1 : src ∉ ownedArrays t1 := fun hc => by
        have := (hba1 src hc).1
        omega
      have hd1 : h1.arrays dst = some d := by
        rw [hua1 dst hdst_no1]
        exact hd
      have hw : h1.writeSlot dst i t1.addr =
          some (h1.setArrStore dst (d.set i t1.addr)) :=
        Heap.writeSlot_eq hd1 (by omega)
      have hk2 : (h1.setArrStore dst (d.set i t1.addr)).ok :=
        Heap.setArrStore_ok hk1 (by simp [hd1])
      have hsrc2 : (h1.setArrStore dst (d.set i t1.addr)).arrays src = some l := by
        rw [Heap.setArrStore_arrays, if_neg hsd, hua1 src hsrc_no1]
        exact hl
      have hd2 : (h1.setArrStore dst (d.set i t1.addr)).arrays dst =
          some (d.set i t1.addr) := by
        rw [Heap.setArrStore_arrays]
        simp
      have hdo' : dst ∉ ownedArraysList ts := fun hc =>
        hdo (by rw [ownedArraysList]; exact List.mem_append.mpr (Or.inr hc))
      have hmts2 : modelsList (h1.setArrStore dst (d.set i t1.addr)) ts := by
        refine modelsList_frame ts h _ hm.2 ?_ ?_
        · intro a ha
          have halt : a < h.next := suppList_lt_next hm.2 hk a ha
          have : a ∉ ownedNodes t1 := fun hc => by
            have := (hbn1 a hc).1
            omega
          rw [Heap.setArrStore_nodes, hun1 a this]
        · intro a ha
          have halt : a < h.next := arraysList_lt_next hm.2 hk a ha
          have hno1 : a ∉ ownedArrays t1 := fun hc => by
            have := (hba1 a hc).1
            omega
          have hnedst : a ≠ dst := fun hc => hdo' (hc ▸ ha)
          rw [Heap.setArrStore_arrays, if_neg hnedst, hua1 a hno1]
      obtain ⟨h3, ts2, hcf, hshape2, hm3, hdarr3, hk3, hnext3, hun2, hua2, hbn2,
        hba2, hndn2, hnda2, hsupp2⟩ :=
        cloneFrom_exact ts (h1.setArrStore dst (d.set i t1.addr)) f src dst (i + 1)
          size l (d.set i t1.addr) hmts2 hk2 hsrc2 hd2 hsd hdo' hslot1 (by omega)
          (by simp [hlen]) (by omega)
      rw [Heap.setArrStore_next] at hnext3 hbn2 hba2
      refine ⟨h3, t1 :: ts2, ?_, ?_, ?_, ?_, hk3, by omega, ?_, ?_, ?_, ?_, ?_, ?_, ?_⟩
      · rw [cloneFrom]
        simp only [hi, if_true, hl, hslot0, hcl, hw, hcf]
      · simp only [shapeList, hshape1, hshape2]
      · refine ⟨?_, hm3⟩
        refine models_frame t1 h1 h3 hm1 ?_ ?_
        · intro a ha
          have halt : a < h1.next := by
            rcases hsupp1 a ha with hown | hsup
            · exact (hbn1 a hown).2
            · have := supp_lt_next hm.1 hk a hsup
              omega
          have : a ∉ ownedNodesList ts2 := fun hc => by
            have := (hbn2 a hc).1
            omega
          rw [hun2 a this, Heap.setArrStore_nodes]
        · intro a ha
          have hbd := hba1 a ha
          have hno2 : a ∉ ownedArraysList ts2 := fun hc => by
            have := (hba2 a hc).1
            omega
          have hnedst : a ≠ dst := by omega
          rw [hua2 a hnedst hno2, Heap.setArrStore_arrays, if_neg hnedst]
      · rw [hdarr3, take_set_succ (by omega)]
        simp
      · intro a ha
        rw [ownedNodesList] at ha
        simp only [List.mem_append] at ha
        push_neg at ha
        rw [hun2 a ha.2, Heap.setArrStore_nodes, hun1 a ha.1]
      · intro a hne ha
        rw [ownedArraysList] at ha
        simp only [List.mem_append] at ha
        push_neg at ha
        rw [hua2 a hne ha.2, Heap.setArrStore_arrays, if_neg hne, hua1 a ha.1]
      · intro a ha
        rw [ownedNodesList] at ha
        rcases List.mem_append.mp ha with ha | ha
        · have := hbn1 a ha
          omega
        · have := hbn2 a ha
          omega
      · intro a ha
        rw [ownedArraysList] at ha
        rcases List.mem_append.mp ha with ha | ha
        · have := hba1 a ha
          omega
        · have := hba2 a ha
          omega
      · rw [ownedNodesList]
        exact nodup_append_bounds hndn1 hndn2 (fun a ha => (hbn1 a ha).2)
          (fun a ha => (hbn2 a ha).1)
      · rw [ownedArraysList]
        exact nodup_append_bounds hnda1 hnda2 (fun a ha => (hba1 a ha).2)
          (fun a ha => (hba2 a ha).1)
      · intro a ha
        rw [suppNodesList] at ha
        rcases List.mem_append.mp ha with ha | ha
        · rcases hsupp1 a ha with hown | hsup
          · exact Or.inl (by rw [ownedNodesList]; exact List.mem_append.mpr (Or.inl hown))
          · exact Or.inr (by rw [suppNodesList]; exact List.mem_append.mpr (Or.inl hsup))
        · rcases hsupp2 a ha with hown | hsup
          · exact Or.inl (by rw [ownedNodesList]; exact List.mem_append.mpr (Or.inr hown))
          · exact Or.inr (by rw [suppNodesList]; exact List.mem_append.mpr (Or.inr hsup))

end

/-- Exact effect of `ffi_type_destroy_array` on a standalone sentinel-terminated
array: every entry's owned subtree and the block itself are freed, exactly
once, nothing else. -/
theorem destroy_array_exact (ts : List Ty) (h : Heap) (fuel p : Nat)
    (hm : modelsArr h p ts) (hx : exclusiveList ts) (hpo : p ∉ ownedArraysList ts)
    (hf : dFuelList ts + 1 ≤ fuel) :
    ffi_type_destroy_array fuel h p =
      some (h.freeAll (ownedNodesList ts) (p :: ownedArraysList ts)) := by
  obtain ⟨f, rfl⟩ : ∃ f, fuel = f + 1 := ⟨fuel - 1, by omega⟩
  obtain ⟨hp0, ⟨l, hl, hsent, htake⟩, hts⟩ := hm
  have hloop : destroyFrom f h p 0 =
      some (h.freeAll (ownedNodesList ts) (ownedArraysList ts)) :=
    destroyFrom_exact ts h f p 0 l hts hx hl hpo (slotInv_zero hsent htake) (by omega)
  rw [ffi_type_destroy_array]
  simp only [hloop]
  exact Heap.freeArray_freeAll h _ _ p hpo (by simp [hl])

mutual

/-- Destroy fuel depends only on the shape of a tree. -/
theorem dFuel_shape_eq (t1 t2 : Ty) (hs : t1.shape = t2.shape) : dFuel t1 = dFuel t2 := by
  cases t1 with
  | atomic a =>
      cases t2 with
      | atomic b => rfl
      | aggregate q sz al tg ea ts => simp [Ty.shape] at hs
  | aggregate p sz al tg ea ts =>
      cases t2 with
      | atomic b => simp [Ty.shape] at hs
      | aggregate q sz2 al2 tg2 ea2 ts2 =>
          simp only [Ty.shape, Shape.aggregate.injEq] at hs
          rw [dFuel, dFuel, dFuelList_shape_eq ts ts2 hs.2.2.2]

/-- Destroy fuel of a list depends only on the shapes. -/
theorem dFuelList_shape_eq (ts1 ts2 : List Ty) (hs : shapeList ts1 = shapeList ts2) :
    dFuelList ts1 = dFuelList ts2 := by
  cases ts1 with
  | nil =>
      cases ts2 with
      | nil => rfl
      | cons t2 ts2 => simp [shapeList] at hs
  | cons t1 ts1 =>
      cases ts2 with
      | nil => simp [shapeList] at hs
      | cons t2 ts2 =>
          simp only [shapeList, List.cons.injEq] at hs
          rw [dFuelList, dFuelList, dFuel_shape_eq t1 t2 hs.1,
            dFuelList_shape_eq ts1 ts2 hs.2]

end

/-- The shape list is the map of the shapes. -/
theorem shapeList_eq_map (ts : List Ty) : shapeList ts = List.map Ty.shape ts := by
  induction ts with
  | nil => rfl
  | cons t ts ih => rw [shapeList, ih, List.map_cons]

/-- A tree's own address is among its support nodes. -/
theorem addr_mem_suppNodes (t : Ty) : t.addr ∈ suppNodes t := by
  cases t with
  | atomic a => simp [Ty.addr, suppNodes]
  | aggregate p sz al tg ea ts => simp [Ty.addr, suppNodes]

/-- The address of a member tree is among the list's support nodes. -/
theorem addr_mem_suppNodesList {ts : List Ty} {t : Ty} (ht : t ∈ ts) :
    t.addr ∈ suppNodesList ts := by
  induction ts with
  | nil => simp at ht
  | cons t0 ts ih =>
      rw [suppNodesList]
      rcases List.mem_cons.mp ht with rfl | ht
      · exact List.mem_append.mpr (Or.inl (addr_mem_suppNodes t))
      · exact List.mem_append.mpr (Or.inr (ih ht))

/-- The address of an aggregate member is among the list's owned nodes. -/
theorem addr_mem_ownedNodesList {ts : List Ty} {t : Ty} (ht : t ∈ ts)
    (hagg : ∀ b, t ≠ Ty.atomic b) : t.addr ∈ ownedNodesList ts := by
  induction ts with
  | nil => simp at ht
  | cons t0 ts ih =>
      rw [ownedNodesList]
      rcases List.mem_cons.mp ht with rfl | ht
      · refine List.mem_append.mpr (Or.inl ?_)
        cases t with
        | atomic b => exact absurd rfl (hagg b)
        | aggregate p sz al tg ea ts0 => simp [Ty.addr, ownedNodes]
      · exact List.mem_append.mpr (Or.inr (ih ht))

/-- Membership in a laid-out list gives a laid-out tree. -/
theorem modelsList_mem {h : Heap} {ts : List Ty} {t : Ty} (hm : modelsList h ts)
    (ht : t ∈ ts) : models h t := by
  induction ts with
  | nil => simp at ht
  | cons t0 ts ih =>
      rcases List.mem_cons.mp ht with rfl | ht
      · exact hm.1
      · exact ih hm.2 ht

/-- A sample atomic singleton node (a 4-byte signed int, tag 10). -/
def atomNode : FfiType := ⟨4, 4, 10, 0⟩

/-- A sample aggregate node: a struct whose element array lives at address 3. -/
def aggNode : FfiType := ⟨8, 4, 13, 3⟩

/-- A concrete heap: the atomic singleton at 1, a struct node at 2 whose
element array at 3 holds two references to the singleton plus the sentinel,
and a zero-length descriptor array at 5 whose block carries a garbage slot
after its sentinel. -/
def demoHeap : Heap :=
  { nodes := fun a => if a = 1 then some atomNode else if a = 2 then some aggNode else none,
    arrays := fun a => if a = 3 then some [1, 1, 0] else if a = 5 then some [0, 9] else none,
    next := 6 }

/-- The struct descriptor tree rooted at address 2. -/
def demoTree : Ty := .aggregate 2 8 4 13 3 [.atomic 1, .atomic 1]

/-- The sample heap is sane. -/
theorem demoHeap_ok : demoHeap.ok := by
  refine ⟨by decide, fun a ha => ?_, fun a ha => ?_⟩
  · by_cases h1 : a = 1
    · subst h1; decide
    · by_cases h2 : a = 2
      · subst h2; decide
      · simp [demoHeap, h1, h2] at ha
  · by_cases h3 : a = 3
    · subst h3; decide
    · by_cases h5 : a = 5
      · subst h5; decide
      · simp [demoHeap, h3, h5] at ha

/-- The atomic singleton is laid out in the sample heap. -/
theorem demoAtomic_models : models demoHeap (Ty.atomic 1) :=
  ⟨by decide, atomNode, by decide, by decide⟩

/-- The struct tree is laid out in the sample heap. -/
theorem demoTree_models : models demoHeap demoTree :=
  ⟨by decide, by decide, by decide, by decide,
    ⟨[1, 1, 0], by decide, by decide, by decide⟩,
    demoAtomic_models, demoAtomic_models, trivial⟩

/-- The struct tree owns its storage exclusively. -/
theorem demoTree_exclusive : exclusive demoTree := ⟨by decide, by decide⟩

/-- The element array at 3 is a well-formed standalone descriptor array. -/
theorem demoArr_models : modelsArr demoHeap 3 [Ty.atomic 1, Ty.atomic 1] :=
  ⟨by decide, ⟨[1, 1, 0], by decide, by decide, by decide⟩,
    demoAtomic_models, demoAtomic_models, trivial⟩

/-- The zero-length array at 5 is a well-formed standalone descriptor array
(sentinel at index 0, garbage after it). -/
theorem demoArrZ_models : modelsArr demoHeap 5 [] :=
  ⟨by decide, ⟨[0, 9], by decide, by decide, by decide⟩, trivial⟩

/-- C7: `ffi_type_destroy` applied to the null descriptor reference is a
no-op returning the heap untouched, and `ffi_type_clone` applied to null
returns null with the heap untouched. -/
theorem c7_null_behaviour (fuel : Nat) (h : Heap) :
    ffi_type_destroy (fuel + 1) h 0 = some h ∧
    ffi_type_clone (fuel + 1) h 0 = some (h, 0) := by
  constructor
  · rw [ffi_type_destroy]
    simp
  · exact clone_null fuel h

/-- C3: cloning an atomic descriptor (tag neither `FFI_TYPE_STRUCT` nor
`FFI_TYPE_COMPLEX`) returns the identical reference with the heap unchanged,
and destroying it leaves the heap entirely unchanged — nothing is freed or
modified. -/
theorem c3_atomic_clone_destroy (h : Heap) (a : Nat) (node : FfiType) (fuel : Nat)
    (ha : a ≠ 0) (hnode : h.nodes a = some node) (hatom : isAggTag node.type = false) :
    ffi_type_clone (fuel + 1) h a = some (h, a) ∧
    ffi_type_destroy (fuel + 1) h a = some h := by
  constructor
  · rw [ffi_type_clone]
    simp [ha, hnode, hatom]
  · rw [ffi_type_destroy]
    simp [ha, hnode, hatom]

/-- Witness for C3 at the singleton of the sample heap. -/
theorem c3_witness :
    ffi_type_clone 1 demoHeap 1 = some (demoHeap, 1) ∧
    ffi_type_destroy 1 demoHeap 1 = some demoHeap :=
  c3_atomic_clone_destroy demoHeap 1 atomNode 0 (by decide) (by decide) (by decide)

/-- C5: destroying a well-formed, exclusively owned aggregate first destroys
the element array (children before the node), then frees the node itself; the
run succeeds (hence no owned address is freed twice), every owned node and
array was allocated before and is gone after (freed exactly once, none
leaked), and no other address is touched. -/
theorem c5_destroy_exact_once (h : Heap) (p sz al tg ea : Nat) (ts : List Ty) (fuel : Nat)
    (hm : models h (Ty.aggregate p sz al tg ea ts))
    (hx : exclusive (Ty.aggregate p sz al tg ea ts))
    (hf : dFuelList ts + 1 ≤ fuel) :
    ∃ hmid,
      ffi_type_destroy_array fuel h ea = some hmid ∧
      hmid.freeNode p =
        some (h.freeAll (p :: ownedNodesList ts) (ea :: ownedArraysList ts)) ∧
      ffi_type_destroy (fuel + 1) h p =
        some (h.freeAll (p :: ownedNodesList ts) (ea :: ownedArraysList ts)) ∧
      (∀ a ∈ p :: ownedNodesList ts, (h.nodes a).isSome ∧
        (h.freeAll (p :: ownedNodesList ts) (ea :: ownedArraysList ts)).nodes a = none) ∧
      (∀ a ∈ ea :: ownedArraysList ts, (h.arrays a).isSome ∧
        (h.freeAll (p :: ownedNodesList ts) (ea :: ownedArraysList ts)).arrays a = none) ∧
      (∀ a, a ∉ p :: ownedNodesList ts →
        (h.freeAll (p :: ownedNodesList ts) (ea :: ownedArraysList ts)).nodes a = h.nodes a) ∧
      (∀ a, a ∉ ea :: ownedArraysList ts →
        (h.freeAll (p :: ownedNodesList ts) (ea :: ownedArraysList ts)).arrays a = h.arrays a) := by
  have hmc := hm
  obtain ⟨hp, hea, htg, hnode, ⟨l, hl, hsent, htake⟩, hts⟩ := hmc
  have hxn : (p :: ownedNodesList ts).Nodup := by
    have := hx.1
    rwa [ownedNodes] at this
  have hxa : (ea :: ownedArraysList ts).Nodup := by
    have := hx.2
    rwa [ownedArrays] at this
  have hpnot : p ∉ ownedNodesList ts := (List.nodup_cons.mp hxn).1
  have heanot : ea ∉ ownedArraysList ts := (List.nodup_cons.mp hxa).1
  have harr : ffi_type_destroy_array fuel h ea =
      some (h.freeAll (ownedNodesList ts) (ea :: ownedArraysList ts)) :=
    destroy_array_exact ts h fuel ea ⟨hea, ⟨l, hl, hsent, htake⟩, hts⟩
      ⟨(List.nodup_cons.mp hxn).2, (List.nodup_cons.mp hxa).2⟩ heanot hf
  have hallocN : ∀ a ∈ p :: ownedNodesList ts, (h.nodes a).isSome := by
    intro a ha
    refine models_supp_allocated _ h hm a (ownedNodes_subset_supp _ a ?_)
    rw [ownedNodes]
    exact ha
  have hallocA : ∀ a ∈ ea :: ownedArraysList ts, (h.arrays a).isSome := by
    intro a ha
    refine models_arrays_allocated _ h hm a ?_
    rw [ownedArrays]
    exact ha
  refine ⟨_, harr, ?_, ?_, ?_, ?_, ?_, ?_⟩
  · exact Heap.freeNode_freeAll h _ _ p hpnot (by simp [hnode])
  · have hd := destroy_exact (Ty.aggregate p sz al tg ea ts) h (fuel + 1) hm hx
      (by rw [dFuel]; omega)
    rw [Ty.addr, ownedNodes, ownedArrays] at hd
    exact hd
  · intro a ha
    exact ⟨hallocN a ha, by simp [Heap.freeAll_nodes, ha]⟩
  · intro a ha
    exact ⟨hallocA a ha, by simp [Heap.freeAll_arrays, ha]⟩
  · intro a ha
    simp [Heap.freeAll_nodes, ha]
  · intro a ha
    simp [Heap.freeAll_arrays, ha]

/-- Witness for C5 at the sample struct: the array is destroyed first, then
the node; the final heap has exactly node 2 and array 3 freed. -/
theorem c5_witness :
    ∃ hmid,
      ffi_type_destroy_array 6 demoHeap 3 = some hmid ∧
      hmid.freeNode 2 = some (demoHeap.freeAll [2] [3]) ∧
      ffi_type_destroy 7 demoHeap 2 = some (demoHeap.freeAll [2] [3]) ∧
      (∀ a ∈ [2], (demoHeap.nodes a).isSome ∧ (demoHeap.freeAll [2] [3]).nodes a = none) ∧
      (∀ a ∈ [3], (demoHeap.arrays a).isSome ∧ (demoHeap.freeAll [2] [3]).arrays a = none) ∧
      (∀ a, a ∉ [2] → (demoHeap.freeAll [2] [3]).nodes a = demoHeap.nodes a) ∧
      (∀ a, a ∉ [3] → (demoHeap.freeAll [2] [3]).arrays a = demoHeap.arrays a) :=
  c5_destroy_exact_once demoHeap 2 8 4 13 3 [Ty.atomic 1, Ty.atomic 1] 6
    demoTree_models demoTree_exclusive (by decide)

/-- C6: destroying a sentinel-terminated array destroys exactly the entries
before the first sentinel and then frees the block (a zero-length array, with
its sentinel at index 0, frees only the block); the outcome is identical on
any heap whose block agrees up to the first sentinel — no slot past the first
sentinel is ever read. -/
theorem c6_destroy_array_sentinel (h : Heap) (p : Nat) (ts : List Ty)
    (l l2 : List Nat) (fuel : Nat)
    (hm : modelsArr h p ts) (hx : exclusiveList ts) (hpo : p ∉ ownedArraysList ts)
    (hl : h.arrays p = some l)
    (hs2 : sentinelIdx l2 = some ts.length) (ht2 : l2.take ts.length = l.take ts.length)
    (hf : dFuelList ts + 1 ≤ fuel) :
    ffi_type_destroy_array fuel h p =
      some (h.freeAll (ownedNodesList ts) (p :: ownedArraysList ts)) ∧
    ffi_type_destroy_array fuel (h.setArrStore p l2) p =
      some (h.freeAll (ownedNodesList ts) (p :: ownedArraysList ts)) := by
  have hmc := hm
  obtain ⟨hp0, ⟨l', hl', hsent, htake⟩, hts⟩ := hmc
  rw [hl] at hl'
  cases hl'
  constructor
  · exact destroy_array_exact ts h fuel p hm hx hpo hf
  · have hm2 : modelsArr (h.setArrStore p l2) p ts := by
      refine ⟨hp0, ⟨l2, ?_, hs2, ?_⟩, ?_⟩
      · rw [Heap.setArrStore_arrays]
        simp
      · rw [ht2]
        exact htake
      · refine modelsList_frame ts h _ hts ?_ ?_
        · intro a _
          rw [Heap.setArrStore_nodes]
        · intro a ha
          have hne : a ≠ p := fun hc => hpo (hc ▸ ha)
          rw [Heap.setArrStore_arrays, if_neg hne]
    have hd2 := destroy_array_exact ts (h.setArrStore p l2) fuel p hm2 hx hpo hf
    rw [hd2]
    refine congrArg some (Heap.extEq ?_ ?_ rfl)
    · intro a
      rfl
    · intro a
      simp only [Heap.freeAll_arrays]
      by_cases hmem : a ∈ p :: ownedArraysList ts
      · simp [hmem]
      · have hne : a ≠ p := fun hc => hmem (hc ▸ List.mem_cons_self p _)
        simp [hmem, Heap.setArrStore_arrays, hne]

/-- Witness for C6 at the zero-length array of the sample heap: only the
block itself is freed, and replacing the garbage slot after the sentinel
(9 becomes 7) does not change the outcome. -/
theorem c6_witness :
    ffi_type_destroy_array 2 demoHeap 5 = some (demoHeap.freeAll [] [5]) ∧
    ffi_type_destroy_array 2 (demoHeap.setArrStore 5 [0, 7]) 5 =
      some (demoHeap.freeAll [] [5]) :=
  c6_destroy_array_sentinel demoHeap 5 [] [0, 9] [0, 7] 2 demoArrZ_models
    ⟨List.nodup_nil, List.nodup_nil⟩ (by decide) (by decide) (by decide) (by decide)
    (by decide)

/-- C9: on every finite, acyclic (exclusively owned), sentinel-terminated
well-formed descriptor tree and array, all four operations terminate
successfully with sufficient fuel. -/
theorem c9_termination (h : Heap) (t : Ty) (p : Nat) (ts : List Ty)
    (hm : models h t) (hx : exclusive t) (hk : h.ok)
    (hma : modelsArr h p ts) (hxa : exclusiveList ts) (hpo : p ∉ ownedArraysList ts) :
    ∃ fuel,
      (ffi_type_destroy fuel h t.addr).isSome ∧
      (ffi_type_clone fuel h t.addr).isSome ∧
      (ffi_type_destroy_array fuel h p).isSome ∧
      (ffi_type_clone_array fuel h p).isSome := by
  refine ⟨dFuel t + cFuel t + dFuelList ts + cFuelList ts + 1, ?_, ?_, ?_, ?_⟩
  · rw [destroy_exact t h (dFuel t + cFuel t + dFuelList ts + cFuelList ts + 1) hm hx
      (by omega)]
    rfl
  · obtain ⟨h', t', hcl, _⟩ :=
      clone_exact t h (dFuel t + cFuel t + dFuelList ts + cFuelList ts + 1) hm hk (by omega)
    rw [hcl]
    rfl
  · rw [destroy_array_exact ts h (dFuel t + cFuel t + dFuelList ts + cFuelList ts + 1) p
      hma hxa hpo (by omega)]
    rfl
  · obtain ⟨h', q, ts', hca, _⟩ :=
      clone_array_exact ts h (dFuel t + cFuel t + dFuelList ts + cFuelList ts + 1) p hma hk
        (by omega)
    rw [hca]
    rfl

/-- Witness for C9 at the sample struct and its element array. -/
theorem c9_witness :
    ∃ fuel,
      (ffi_type_destroy fuel demoHeap 2).isSome ∧
      (ffi_type_clone fuel demoHeap 2).isSome ∧
      (ffi_type_destroy_array fuel demoHeap 3).isSome ∧
      (ffi_type_clone_array fuel demoHeap 3).isSome :=
  c9_termination demoHeap demoTree 3 [Ty.atomic 1, Ty.atomic 1] demoTree_models
    demoTree_exclusive demoHeap_ok demoArr_models ⟨by decide, by decide⟩ (by decide)

/-- Element-wise consequence of shape equality of two lists of trees. -/
theorem shape_at_index {ts ts' : List Ty} (hshape : shapeList ts' = shapeList ts)
    {i : Nat} (hi : i < ts.length) :
    ∃ t0 t1, ts[i]? = some t0 ∧ ts'[i]? = some t1 ∧ t1.shape = t0.shape := by
  have hlen : ts'.length = ts.length := by
    have h0 := congrArg List.length hshape
    rwa [shapeList_length, shapeList_length] at h0
  have hi' : i < ts'.length := by omega
  refine ⟨ts[i], ts'[i], List.getElem?_eq_getElem hi, List.getElem?_eq_getElem hi', ?_⟩
  have hmap : List.map Ty.shape ts' = List.map Ty.shape ts := by
    rw [← shapeList_eq_map, ← shapeList_eq_map]
    exact hshape
  have h1 := congrArg (fun l0 => l0[i]?) hmap
  simp only [List.getElem?_map, List.getElem?_eq_getElem hi,
    List.getElem?_eq_getElem hi'] at h1
  simpa using h1

/-- A tree whose shape is an atomic shape is that atomic leaf. -/
theorem shape_atomic_inv {t : Ty} {b : Nat} (h : t.shape = Shape.atomic b) :
    t = Ty.atomic b := by
  cases t with
  | atomic a =>
      simp only [Ty.shape, Shape.atomic.injEq] at h
      rw [h]
  | aggregate p sz al tg ea ts => simp [Ty.shape] at h

/-- Shape equality preserves not being an atomic leaf. -/
theorem shape_not_atomic {t0 t1 : Ty} (hs : t1.shape = t0.shape)
    (h0 : ∀ b, t0 ≠ Ty.atomic b) : ∀ b, t1 ≠ Ty.atomic b := by
  intro b hb
  subst hb
  cases t0 with
  | atomic a => exact h0 a rfl
  | aggregate p sz al tg ea ts => simp [Ty.shape] at hs

/-- C2: `ffi_type_clone_array` on an array of `n` entries (sentinel at index
`n`) allocates exactly `n + 1` slots, puts the sentinel at index `n`, and fills
slot `i < n` with the address of a clone of entry `i` (same shape, laid out in
the result heap). -/
theorem c2_clone_array_layout (h : Heap) (p : Nat) (ts : List Ty) (fuel : Nat)
    (hm : modelsArr h p ts) (hk : h.ok) (hf : cFuelList ts + 1 ≤ fuel) :
    ∃ h' q ts' blk,
      ffi_type_clone_array fuel h p = some (h', q) ∧
      q = h.next ∧
      h'.arrays q = some blk ∧
      blk = List.map Ty.addr ts' ++ [0] ∧
      blk.length = ts.length + 1 ∧
      blk[ts.length]? = some 0 ∧
      shapeList ts' = shapeList ts ∧
      modelsList h' ts' ∧
      (∀ i, i < ts.length →
        ∃ t0 t1, ts[i]? = some t0 ∧ ts'[i]? = some t1 ∧ t1.shape = t0.shape ∧
          blk[i]? = some t1.addr) := by
  obtain ⟨h', q, ts', hca, hq, hshape, hm', harr, _, _, _, _, _, _, _, _, _⟩ :=
    clone_array_exact ts h fuel p hm hk hf
  have hlen : ts'.length = ts.length := by
    have h0 := congrArg List.length hshape
    rwa [shapeList_length, shapeList_length] at h0
  refine ⟨h', q, ts', List.map Ty.addr ts' ++ [0], hca, hq, harr, rfl, ?_, ?_, hshape,
    hm', ?_⟩
  · simp [hlen]
  · rw [← hlen, List.getElem?_append_right (by simp)]
    simp
  · intro i hi
    obtain ⟨t0, t1, hts0, hts1, hsh⟩ := shape_at_index hshape hi
    refine ⟨t0, t1, hts0, hts1, hsh, ?_⟩
    have hi' : i < ts'.length := by omega
    have hcond : i < (List.map Ty.addr ts').length := by simp [hi']
    rw [List.getElem?_append, if_pos hcond, List.getElem?_map, hts1]
    rfl

/-- Witness for C2 at the sample element array. -/
theorem c2_witness :
    ∃ h' q ts' blk,
      ffi_type_clone_array 7 demoHeap 3 = some (h', q) ∧
      q = demoHeap.next ∧
      h'.arrays q = some blk ∧
      blk = List.map Ty.addr ts' ++ [0] ∧
      blk.length = 3 ∧
      blk[2]? = some 0 ∧
      shapeList ts' = shapeList [Ty.atomic 1, Ty.atomic 1] ∧
      modelsList h' ts' ∧
      (∀ i : Nat, i < 2 →
        ∃ t0 t1 : Ty, [Ty.atomic 1, Ty.atomic 1][i]? = some t0 ∧ ts'[i]? = some t1 ∧
          t1.shape = t0.shape ∧ blk[i]? = some t1.addr) :=
  c2_clone_array_layout demoHeap 3 [Ty.atomic 1, Ty.atomic 1] 7 demoArr_models
    demoHeap_ok (by decide)

/-- C10: cloning an array duplicates only the aggregate entries: every atomic
entry of the source reappears in the cloned array as the pointer-identical
shared reference, while every aggregate entry is replaced by a fresh address
distinct from the source's. -/
theorem c10_atomic_children_shared (h : Heap) (p : Nat) (ts : List Ty) (fuel : Nat)
    (hm : modelsArr h p ts) (hk : h.ok) (hf : cFuelList ts + 1 ≤ fuel) :
    ∃ h' q ts',
      ffi_type_clone_array fuel h p = some (h', q) ∧
      h'.arrays q = some (List.map Ty.addr ts' ++ [0]) ∧
      ts'.length = ts.length ∧
      (∀ (i b : Nat), ts[i]? = some (Ty.atomic b) → ts'[i]? = some (Ty.atomic b)) ∧
      (∀ (i : Nat) (t0 : Ty), ts[i]? = some t0 → (∀ b, t0 ≠ Ty.atomic b) →
        ∃ t1 : Ty, ts'[i]? = some t1 ∧ t1.addr ≠ t0.addr ∧ h.next ≤ t1.addr) := by
  obtain ⟨h', q, ts', hca, hq, hshape, hm', harr, _, _, _, _, hbn, _, _, _, hsupp⟩ :=
    clone_array_exact ts h fuel p hm hk hf
  have hlen : ts'.length = ts.length := by
    have h0 := congrArg List.length hshape
    rwa [shapeList_length, shapeList_length] at h0
  refine ⟨h', q, ts', hca, harr, hlen, ?_, ?_⟩
  · intro i b hts0
    have hi : i < ts.length := by
      by_contra hcon
      rw [List.getElem?_eq_none (by omega)] at hts0
      cases hts0
    obtain ⟨t0, t1, hts0', hts1, hsh⟩ := shape_at_index hshape hi
    rw [hts0] at hts0'
    cases hts0'
    have ht1 : t1 = Ty.atomic b := shape_atomic_inv (by rw [hsh]; rfl)
    rw [hts1, ht1]
  · intro i t0 hts0 hnat
    have hi : i < ts.length := by
      by_contra hcon
      rw [List.getElem?_eq_none (by omega)] at hts0
      cases hts0
    obtain ⟨t0', t1, hts0', hts1, hsh⟩ := shape_at_index hshape hi
    rw [hts0] at hts0'
    cases hts0'
    have hnat1 : ∀ b, t1 ≠ Ty.atomic b := shape_not_atomic hsh hnat
    have ht1mem : t1 ∈ ts' := by
      have hi' : i < ts'.length := by omega
      rw [List.getElem?_eq_getElem hi'] at hts1
      cases hts1
      exact List.getElem_mem hi'
    have ht1own : t1.addr ∈ ownedNodesList ts' := addr_mem_ownedNodesList ht1mem hnat1
    have ht1fresh := hbn t1.addr ht1own
    have ht0mem : t0 ∈ ts := by
      have := List.getElem?_eq_getElem hi
      rw [hts0] at this
      cases this
      exact List.getElem_mem hi
    have ht0old : t0.addr < h.next :=
      suppList_lt_next hm.2.2 hk t0.addr (addr_mem_suppNodesList ht0mem)
    exact ⟨t1, hts1, by omega, by omega⟩

/-- Witness for C10 at the sample element array (both entries atomic). -/
theorem c10_witness :
    ∃ h' q ts',
      ffi_type_clone_array 7 demoHeap 3 = some (h', q) ∧
      h'.arrays q = some (List.map Ty.addr ts' ++ [0]) ∧
      ts'.length = 2 ∧
      (∀ (i b : Nat), [Ty.atomic 1, Ty.atomic 1][i]? = some (Ty.atomic b) →
        ts'[i]? = some (Ty.atomic b)) ∧
      (∀ (i : Nat) (t0 : Ty), [Ty.atomic 1, Ty.atomic 1][i]? = some t0 →
        (∀ b, t0 ≠ Ty.atomic b) →
        ∃ t1 : Ty, ts'[i]? = some t1 ∧ t1.addr ≠ t0.addr ∧ demoHeap.next ≤ t1.addr) :=
  c10_atomic_children_shared demoHeap 3 [Ty.atomic 1, Ty.atomic 1] 7 demoArr_models
    demoHeap_ok (by decide)

/-- C4: cloning an aggregate allocates a fresh descriptor (distinct from the
source and unallocated beforehand) whose scalar attributes `size`, `alignment`
and `type` are bitwise-equal to the source's and whose `elements` field is
exactly the address returned by `ffi_type_clone_array` on the source's element
array; the result is structurally equal to the source and carries an aggregate
tag, so `ffi_type_destroy` recognises it as an aggregate. -/
theorem c4_clone_aggregate (h : Heap) (p sz al tg ea : Nat) (ts : List Ty) (fuel : Nat)
    (hm : models h (Ty.aggregate p sz al tg ea ts)) (hk : h.ok)
    (hf : cFuelList ts + 1 ≤ fuel) :
    ∃ h2 ea2 h3 ts',
      ffi_type_clone_array fuel (h.allocNode ⟨sz, al, tg, ea⟩).1 ea = some (h2, ea2) ∧
      ffi_type_clone (fuel + 1) h p = some (h3, h.next) ∧
      p ≠ h.next ∧
      h.nodes h.next = none ∧
      h3.nodes h.next = some ⟨sz, al, tg, ea2⟩ ∧
      isAggTag tg = true ∧
      shapeList ts' = shapeList ts ∧
      models h3 (Ty.aggregate h.next sz al tg ea2 ts') := by
  have hmc := hm
  obtain ⟨hp, hea, htg, hnode, ⟨l, hl, hsent, htake⟩, hts⟩ := hmc
  have hplt : p < h.next := hk.2.1 p (by simp [hnode])
  have hfresh : h.nodes h.next = none := by
    cases hno : h.nodes h.next with
    | none => rfl
    | some n0 =>
        have := hk.2.1 h.next (by simp [hno])
        omega
  have hkA : (h.allocNode ⟨sz, al, tg, ea⟩).1.ok := Heap.allocNode_ok hk _
  have hmArr : modelsArr (h.allocNode ⟨sz, al, tg, ea⟩).1 ea ts := by
    refine ⟨hea, ⟨l, ?_, hsent, htake⟩, ?_⟩
    · rw [Heap.allocNode_arrays]
      exact hl
    · refine modelsList_frame ts h _ hts ?_ ?_
      · intro a ha
        rw [Heap.allocNode_nodes]
        have := suppList_lt_next hts hk a ha
        rw [if_neg (by omega)]
      · intro a _
        rw [Heap.allocNode_arrays]
  obtain ⟨h2, q2, ts', hca, hq2, hshape, hmts, harr, hok2, hnext2, hun, hua,
    hbn, hba, hndn, hnda, hsupp⟩ :=
    clone_array_exact ts (h.allocNode ⟨sz, al, tg, ea⟩).1 fuel ea hmArr hkA hf
  rw [Heap.allocNode_next] at hq2 hnext2 hbn hba
  subst hq2
  have hq2notin : h.next ∉ ownedNodesList ts' := fun hc => by
    have := (hbn _ hc).1
    omega
  have hnode2 : h2.nodes h.next = some ⟨sz, al, tg, ea⟩ := by
    rw [hun h.next hq2notin, Heap.allocNode_nodes]
    simp
  have hset : h2.setElements h.next (h.next + 1) =
      some (h2.setNodeStore h.next ⟨sz, al, tg, h.next + 1⟩) :=
    Heap.setElements_eq hnode2
  refine ⟨h2, h.next + 1, h2.setNodeStore h.next ⟨sz, al, tg, h.next + 1⟩, ts', hca,
    ?_, by omega, hfresh, ?_, htg, hshape, ?_⟩
  · rw [clone_agg_step fuel h p sz al tg ea hp hnode htg]
    simp only [hca, hset]
  · rw [Heap.setNodeStore_nodes]
    simp
  · refine ⟨by have h0 := hk.1; omega, by omega, htg, ?_,
      ⟨List.map Ty.addr ts' ++ [0], ?_, ?_, ?_⟩, ?_⟩
    · rw [Heap.setNodeStore_nodes]
      simp
    · rw [Heap.setNodeStore_arrays]
      exact harr
    · have h0 : ∀ a ∈ List.map Ty.addr ts', a ≠ 0 := by
        intro a ha
        obtain ⟨t0, ht0, rfl⟩ := List.mem_map.mp ha
        exact modelsList_addr_ne_zero hmts t0 ht0
      rw [sentinelIdx_append h0]
      simp
    · rw [← List.length_map ts' Ty.addr, List.take_left]
    · refine modelsList_frame ts' h2 _ hmts ?_ ?_
      · intro a ha
        rw [Heap.setNodeStore_nodes]
        have hane : a ≠ h.next := by
          rcases hsupp a ha with hown | hsup
          · have := (hbn _ hown).1
            omega
          · have := suppList_lt_next hts hk a hsup
            omega
        rw [if_neg hane]
      · intro a _
        rw [Heap.setNodeStore_arrays]

/-- Witness for C4 at the sample struct. -/
theorem c4_witness :
    ∃ h2 ea2 h3 ts',
      ffi_type_clone_array 7 (demoHeap.allocNode ⟨8, 4, 13, 3⟩).1 3 = some (h2, ea2) ∧
      ffi_type_clone 8 demoHeap 2 = some (h3, demoHeap.next) ∧
      2 ≠ demoHeap.next ∧
      demoHeap.nodes demoHeap.next = none ∧
      h3.nodes demoHeap.next = some ⟨8, 4, 13, ea2⟩ ∧
      isAggTag 13 = true ∧
      shapeList ts' = shapeList [Ty.atomic 1, Ty.atomic 1] ∧
      models h3 (Ty.aggregate demoHeap.next 8 4 13 ea2 ts') :=
  c4_clone_aggregate demoHeap 2 8 4 13 3 [Ty.atomic 1, Ty.atomic 1] 7
    demoTree_models demoHeap_ok (by decide)

/-- C1: destroying a clone of a well-formed, exclusively owned tree succeeds
and leaves the original tree entirely unchanged: the clone's owned storage is
disjoint from the original's, and after the destroy the node and array stores
are pointwise identical to the initial ones, so the original is still fully
laid out and usable. -/
theorem c1_clone_destroy_roundtrip (h : Heap) (t : Ty)
    (hm : models h t) (hk : h.ok) (_hx : exclusive t) :
    ∃ fuel h1 t' h2,
      ffi_type_clone fuel h t.addr = some (h1, t'.addr) ∧
      (∀ a ∈ ownedNodes t', a ∉ ownedNodes t) ∧
      (∀ a ∈ ownedArrays t', a ∉ ownedArrays t) ∧
      ffi_type_destroy fuel h1 t'.addr = some h2 ∧
      h2.nodes = h.nodes ∧
      h2.arrays = h.arrays ∧
      models h2 t ∧
      h2.ok := by
  obtain ⟨h1, t', hcl, hshape, hm1, hk1, hnext1, hun1, hua1, hbn1, hba1, hndn1,
    hnda1, _⟩ := clone_exact t h (cFuel t + dFuel t) hm hk (by omega)
  have hdf : dFuel t' = dFuel t := dFuel_shape_eq t' t hshape
  have hd := destroy_exact t' h1 (cFuel t + dFuel t) hm1 ⟨hndn1, hnda1⟩ (by omega)
  have hnodes : (h1.freeAll (ownedNodes t') (ownedArrays t')).nodes = h.nodes := by
    funext a
    rw [Heap.freeAll_nodes]
    by_cases hmem : a ∈ ownedNodes t'
    · rw [if_pos hmem]
      have hge := (hbn1 a hmem).1
      cases hna : h.nodes a with
      | none => rfl
      | some n0 =>
          have := hk.2.1 a (by simp [hna])
          omega
    · rw [if_neg hmem]
      exact hun1 a hmem
  have harrays : (h1.freeAll (ownedNodes t') (ownedArrays t')).arrays = h.arrays := by
    funext a
    rw [Heap.freeAll_arrays]
    by_cases hmem : a ∈ ownedArrays t'
    · rw [if_pos hmem]
      have hge := (hba1 a hmem).1
      cases hna : h.arrays a with
      | none => rfl
      | some l0 =>
          have := hk.2.2 a (by simp [hna])
          omega
    · rw [if_neg hmem]
      exact hua1 a hmem
  refine ⟨cFuel t + dFuel t, h1, t', h1.freeAll (ownedNodes t') (ownedArrays t'),
    hcl, ?_, ?_, hd, hnodes, harrays, ?_, Heap.ok_freeAll hk1 _ _⟩
  · intro a ha hc
    have h1b := (hbn1 a ha).1
    have h2b := hk.2.1 a
      (models_supp_allocated t h hm a (ownedNodes_subset_supp t a hc))
    omega
  · intro a ha hc
    have h1b := (hba1 a ha).1
    have h2b := hk.2.2 a (models_arrays_allocated t h hm a hc)
    omega
  · refine models_frame t h _ hm ?_ ?_
    · intro a _
      rw [hnodes]
    · intro a _
      rw [harrays]

/-- Witness for C1 at the sample struct. -/
theorem c1_witness :
    ∃ fuel h1 t' h2,
      ffi_type_clone fuel demoHeap demoTree.addr = some (h1, t'.addr) ∧
      (∀ a ∈ ownedNodes t', a ∉ ownedNodes demoTree) ∧
      (∀ a ∈ ownedArrays t', a ∉ ownedArrays demoTree) ∧
      ffi_type_destroy fuel h1 t'.addr = some h2 ∧
      h2.nodes = demoHeap.nodes ∧
      h2.arrays = demoHeap.arrays ∧
      models h2 demoTree ∧
      h2.ok :=
  c1_clone_destroy_roundtrip demoHeap demoTree demoTree_models demoHeap_ok
    demoTree_exclusive

/-- From `src/src/c/test.c`: the host callback performs
`*(int*)result = *(int*)userdata + **(int**)args`; for the test's CIF of one
int argument, the dereferenced values are the bound context and the caller's
argument, and the sum is written to the result buffer. -/
def callback (userdata arg : Int) : Int :=
  userdata + arg

/-- Modelled from the spec: the closure trampoline itself
(`ffi_closure_alloc`, `ffi_prep_closure_loc` and the machine-code stub) is
external libffi code, not part of this repository's sources.  Per the spec,
calling the entry point of a closure bound to (CIF `(int32) -> int32`, host
callback, context) with argument `x` invokes the callback with a result
buffer, an argument-pointer array holding a pointer to `x`, and the context,
then returns the value the callback wrote into the result buffer. -/
def boundEntryPoint (cb : Int → Int → Int) (context : Int) (x : Int) : Int :=
  cb context x

/-- C8: with the callback of `test.c` bound over context 5, the closure's
entry point maps 6 to 11 and 7 to 12. -/
theorem c8_closure_scenario :
    boundEntryPoint callback 5 6 = 11 ∧ boundEntryPoint callback 5 7 = 12 := by
  constructor <;> rfl
